import Mathlib

set_option maxHeartbeats 1000000
set_option maxRecDepth 4000

namespace PlanEnum

/-!
Shallow embedding of `src/mongo/db/query/plan_enumerator.cpp` (class
`PlanEnumerator`).  Predicate-tree nodes are identified by their positional
path from the root (the list of child indices), standing in for the node
pointers used by the C++ code.  The mutable tag slot of the tree is modelled
as an explicit association list from node paths to `IndexTag`s; the
`verify(...)` assertions of the source abort the process, which is modelled
by returning `none`.
-/

/-- Position of a node in the predicate tree: the list of child indices
walked from the root.  Stands in for the `MatchExpression*` node identity. -/
abbrev NodePath := List Nat

/-- Relevance tag attached to a leaf on input (`RelevantTag` of the source):
index ids usable with this predicate as leading column (`first`) or only as
a non-leading column (`notFirst`). -/
structure RelevantTag where
  first : List Nat
  notFirst : List Nat
deriving DecidableEq, Repr

/-- Output annotation (`IndexTag` of the source): use index `index` at key
position `pos`. -/
structure IndexTag where
  index : Nat
  pos : Nat
deriving DecidableEq, Repr

/-- Catalog entry (`IndexEntry` of the source): the ordered key pattern
(field names) and the multikey flag. -/
structure IndexEntry where
  keyPattern : List String
  multikey : Bool
deriving DecidableEq, Repr

/-- The match kinds relevant to the enumerator core. -/
inductive MatchType where
  | AND
  | OR
  | ELEM_MATCH_OBJECT
  | EQ
  | GEO_NEAR
deriving DecidableEq, Repr

/-- Predicate tree node (`MatchExpression` of the source): a match kind, a
dotted field path, the optional input relevance tag, and child nodes. -/
inductive MatchExpression where
  | node (matchType : MatchType) (path : String) (rt : Option RelevantTag)
      (children : List MatchExpression)

def MatchExpression.matchType : MatchExpression → MatchType
  | .node mt _ _ _ => mt

def MatchExpression.path : MatchExpression → String
  | .node _ s _ _ => s

def MatchExpression.rt : MatchExpression → Option RelevantTag
  | .node _ _ r _ => r

def MatchExpression.children : MatchExpression → List MatchExpression
  | .node _ _ _ cs => cs

/-- Modelled from the spec: the node classifier
(`Indexability::arrayUsesIndexOnChildren`, declared in
`mongo/db/query/indexability.h`, which is not part of the sources) —
array-scoped logical nodes whose children are evaluated against a path
prefix, e.g. element-match on an array field. -/
def arrayUsesIndexOnChildren (mt : MatchType) : Bool :=
  match mt with
  | .ELEM_MATCH_OBJECT => true
  | _ => false

/-- Modelled from the spec: the node classifier
(`Indexability::nodeCanUseIndexOnOwnField` of `indexability.h`, not part of
the sources) — leaves indexable on their own field.  Geo-nearest predicates
are leaves served by their specialized index. -/
def nodeCanUseIndexOnOwnField (mt : MatchType) : Bool :=
  match mt with
  | .EQ => true
  | .GEO_NEAR => true
  | _ => false

/-- Modelled from the spec: `MatchExpression::isLogical` — generic logical
nodes (conjunction / disjunction). -/
def isLogical (mt : MatchType) : Bool :=
  match mt with
  | .AND => true
  | .OR => true
  | _ => false

/-- Association-list lookup (first match wins); stands in for the pointer
keyed `std::map`s of the source. -/
def alookup {α : Type} [DecidableEq α] {β : Type} : List (α × β) → α → Option β
  | [], _ => none
  | (k, v) :: rest, q => if k = q then some v else alookup rest q

/-- The index-tag state of the tree: tags installed on leaves, keyed by node
path.  An absent key is an untagged node (`NULL == getTag()`). -/
abbrev Tags := List (NodePath × IndexTag)

def getTag (tags : Tags) (q : NodePath) : Option IndexTag := alookup tags q

def setTag (tags : Tags) (q : NodePath) (t : IndexTag) : Tags := (q, t) :: tags

/-- One memo entry (`NodeSolution` of the source), as a tagged variant:
exactly one of `pred` / `andSolution` / `orSolution` is present in the
source, discriminated by null-ness. -/
inductive NodeSolution where
  | pred (first : List Nat) (notFirst : List Nat) (expr : NodePath)
  | andSolution (subnodes : List (List Nat))
  | orSolution (subnodes : List Nat)
deriving DecidableEq, Repr

/-- The enumerator state filled in by `prepMemo`: `_inOrderCount`, `_memo`
(entry for id `i` at list position `i`: ids are handed out consecutively),
`_nodeToId` and `_curEnum`. -/
structure PrepState where
  inOrderCount : Nat
  memo : List NodeSolution
  nodeToId : List (NodePath × Nat)
  curEnum : List (Nat × Nat)
deriving Repr

def initState : PrepState := ⟨0, [], [], []⟩

/-- `_nodeToId[node]`: `std::map::operator[]` default-constructs `0` for an
absent key. -/
def lookupNodeId (m : List (NodePath × Nat)) (q : NodePath) : Nat :=
  (alookup m q).getD 0

/-- `_curEnum[id]`: `std::map::operator[]` default-constructs `0` for an
absent key. -/
def curEnumD (ce : List (Nat × Nat)) (id : Nat) : Nat :=
  (alookup ce id).getD 0

/-- `std::vector::swap` of options 0 and `g` (line 349). -/
def swapFirst (l : List (List Nat)) (g : Nat) : List (List Nat) :=
  (l.set 0 ((l.get? g).getD [])).set g ((l.get? 0).getD [])

mutual

/-- `PlanEnumerator::prepMemo` (plan_enumerator.cpp lines 243-366): builds
the memo entry for the node at path `p` and all its descendants; returns the
updated state and whether the node is indexable. -/
def prepMemo (p : NodePath) (e : MatchExpression) (st : PrepState) :
    PrepState × Bool :=
  match e with
  | .node mt _path rt cs =>
    if arrayUsesIndexOnChildren mt then
      -- lines 244-265
      let r := prepArrayChildren p 0 cs st
      let st1 := r.1
      let opts := r.2
      let myID := st1.inOrderCount
      (⟨myID + 1, st1.memo ++ [.andSolution opts],
        (p, myID) :: st1.nodeToId, (myID, 0) :: st1.curEnum⟩,
       decide (0 < opts.length))
    else if nodeCanUseIndexOnOwnField mt then
      -- lines 266-286; the relevance tag lists are moved into the entry
      let myID := st.inOrderCount
      let first := match rt with | some r => r.first | none => []
      let notFirst := match rt with | some r => r.notFirst | none => []
      (⟨myID + 1, st.memo ++ [.pred first notFirst p],
        (p, myID) :: st.nodeToId, (myID, 0) :: st.curEnum⟩,
       decide (0 < first.length))
    else if isLogical mt then
      if mt = .OR then
        -- lines 288-308; note `_curEnum` is not initialized for OR entries
        let r := prepOrChildren p 0 cs st
        let st1 := r.1
        let indexed := r.2
        let myID := st1.inOrderCount
        let subs := (List.range cs.length).map
          (fun i => lookupNodeId st1.nodeToId (p ++ [i]))
        (⟨myID + 1, st1.memo ++ [.orSolution subs],
          (p, myID) :: st1.nodeToId, st1.curEnum⟩,
         indexed)
      else
        -- lines 309-363; `verify(MatchExpression::AND == node->matchType())`
        let r := prepAndChildren p 0 cs st [] none
        let st1 := r.1
        let opts := r.2.1
        let geoNearChild := r.2.2
        let opts1 := match geoNearChild with
          | some g => if g ≠ 0 then swapFirst opts g else opts
          | none => opts
        let myID := st1.inOrderCount
        (⟨myID + 1, st1.memo ++ [.andSolution opts1],
          (p, myID) :: st1.nodeToId, (myID, 0) :: st1.curEnum⟩,
         decide (0 < opts1.length))
    else
      -- line 365: no memo entry is created
      (st, false)

/-- Children loop of the array-scoped branch (lines 247-253): build each
child; every indexable child contributes a single-element option. -/
def prepArrayChildren (p : NodePath) (i : Nat) (cs : List MatchExpression)
    (st : PrepState) : PrepState × List (List Nat) :=
  match cs with
  | [] => (st, [])
  | c :: rest =>
    let r := prepMemo (p ++ [i]) c st
    let opts0 : List (List Nat) :=
      if r.2 then [[lookupNodeId r.1.nodeToId (p ++ [i])]] else []
    let r2 := prepArrayChildren p (i + 1) rest r.1
    (r2.1, opts0 ++ r2.2)

/-- Children loop of the OR branch (lines 290-295): build every child,
recording whether all were indexable. -/
def prepOrChildren (p : NodePath) (i : Nat) (cs : List MatchExpression)
    (st : PrepState) : PrepState × Bool :=
  match cs with
  | [] => (st, true)
  | c :: rest =>
    let r := prepMemo (p ++ [i]) c st
    let r2 := prepOrChildren p (i + 1) rest r.1
    (r2.1, r.2 && r2.2)

/-- Children loop of the AND branch (lines 320-346): collect a single-child
option per indexable child and track the position of the last collected
option whose memo entry is a geo-nearest predicate. -/
def prepAndChildren (p : NodePath) (i : Nat) (cs : List MatchExpression)
    (st : PrepState) (acc : List (List Nat)) (geo : Option Nat) :
    PrepState × List (List Nat) × Option Nat :=
  match cs with
  | [] => (st, acc, geo)
  | c :: rest =>
    let r := prepMemo (p ++ [i]) c st
    if r.2 then
      let childID := lookupNodeId r.1.nodeToId (p ++ [i])
      let acc1 := acc ++ [[childID]]
      let geo1 := match r.1.memo.get? childID with
        | some (.pred _ _ _) =>
          if c.matchType = .GEO_NEAR then some (acc1.length - 1) else geo
        | _ => geo
      prepAndChildren p (i + 1) rest r.1 acc1 geo1
    else
      prepAndChildren p (i + 1) rest r.1 acc geo

end

/-- The part of the enumerator state read by `tagMemo`. -/
structure MemoCtx where
  memo : List NodeSolution
  curEnum : List (Nat × Nat)

/-- Sequential tagging of a list of memo ids; aborts as soon as one call
aborts (a `verify` would have killed the process). -/
def tagSeq (f : Nat → Tags → Option Tags) : List Nat → Tags → Option Tags
  | [], tags => some tags
  | id :: rest, tags =>
    match f id tags with
    | none => none
    | some t1 => tagSeq f rest t1

/-- `PlanEnumerator::tagMemo` (lines 368-400).  The source recursion has no
fuel; the fuel argument only bounds the recursion depth and is chosen large
enough at every call site (cross-memo references of a well-built memo point
to strictly smaller ids).  `none` models a failed `verify` (or exhausted
fuel).  The one-argument `IndexTag` constructor used at line 380 sets
position 0 (modelled from the spec; the constructor lives in `index_tag.h`,
which is not part of the sources). -/
def tagMemo (ctx : MemoCtx) : Nat → Nat → Tags → Option Tags
  | 0, _, _ => none
  | fuel + 1, id, tags =>
    match ctx.memo.get? id with
    | none => none                    -- verify(NULL != soln)
    | some (.pred first _nf expr) =>
      if (getTag tags expr).isSome then none   -- verify(NULL == ...getTag())
      else if first.isEmpty then some tags
      else
        match first.get? (curEnumD ctx.curEnum id) with
        | none => none                -- verify(_curEnum[id] < ...first.size())
        | some idx => some (setTag tags expr ⟨idx, 0⟩)
    | some (.orSolution subs) => tagSeq (tagMemo ctx fuel) subs tags
    | some (.andSolution subs) =>
      match subs.get? (curEnumD ctx.curEnum id) with
      | none => none                  -- verify(_curEnum[id] < ...subnodes.size())
      | some cur => tagSeq (tagMemo ctx fuel) cur tags

/-- The part of the enumerator state read by `checkCompound`. -/
structure CCCtx where
  indices : List IndexEntry
  memo : List NodeSolution
  nodeToId : List (NodePath × Nat)

/-- Step 1 of `checkCompound` (lines 124-144): partition the conjunction's
children into those already tagged with a compound index and the untagged
ones; other children are ignored.  `none` models a failed `verify` at lines
131-132 or an out-of-bounds catalog access in `isCompound` (undefined
behavior in the source). -/
def partitionChildren (ctx : CCCtx) (tags : Tags) (p : NodePath) :
    Nat → List MatchExpression →
    Option (List (NodePath × MatchExpression) × List (NodePath × MatchExpression))
  | _, [] => some ([], [])
  | i, c :: rest =>
    if nodeCanUseIndexOnOwnField c.matchType then
      match ctx.memo.get? (lookupNodeId ctx.nodeToId (p ++ [i])) with
      | some (.pred _ _ _) =>
        match getTag tags (p ++ [i]) with
        | none =>
          match partitionChildren ctx tags p (i + 1) rest with
          | none => none
          | some (a, u) => some (a, (p ++ [i], c) :: u)
        | some t =>
          match ctx.indices.get? t.index with
          | none => none              -- isCompound: unchecked catalog access
          | some ie =>
            if 1 < ie.keyPattern.length then
              match partitionChildren ctx tags p (i + 1) rest with
              | none => none
              | some (a, u) => some ((p ++ [i], c) :: a, u)
            else partitionChildren ctx tags p (i + 1) rest
      | _ => none                     -- verify lines 131-132
    else partitionChildren ctx tags p (i + 1) rest

/-- Inner scan of `checkCompound` (lines 180-205): look for the first
still-untagged candidate among `unassigned` whose qualified path matches the
key-pattern column `col` and whose entry lists `idx` in `notFirst`; tag it
with position `pos`.  `some none`: no candidate (the column stays open);
`none`: a `verify` failed. -/
def findAndAssign (ctx : CCCtx) (idx : Nat) (pfx : String) (col : String)
    (pos : Nat) (tags : Tags) :
    List (NodePath × MatchExpression) → Option (Option Tags)
  | [] => some none
  | (q, c) :: rest =>
    if pfx ++ c.path ≠ col then findAndAssign ctx idx pfx col pos tags rest
    else if (getTag tags q).isSome then findAndAssign ctx idx pfx col pos tags rest
    else
      match ctx.memo.get? (lookupNodeId ctx.nodeToId q) with
      | some (.pred _ notFirst expr) =>
        if expr ≠ q then none         -- verify(unassigned[j] == soln->pred->expr)
        else if idx ∈ notFirst then some (some (setTag tags q ⟨idx, pos⟩))
        else findAndAssign ctx idx pfx col pos tags rest
      | _ => none                     -- verify(soln), verify(soln->pred)

/-- The `while (it.more())` loop of `checkCompound` (lines 175-212): walk
the remaining key-pattern columns, assigning each to the first candidate;
stop at the first column with no candidate (contiguity). -/
def completeCols (ctx : CCCtx) (idx : Nat) (pfx : String)
    (unassigned : List (NodePath × MatchExpression)) :
    List String → Nat → Tags → Option Tags
  | [], _, tags => some tags
  | col :: rest, pos, tags =>
    match findAndAssign ctx idx pfx col pos tags unassigned with
    | none => none
    | some none => some tags          -- if (!assignedField) break;
    | some (some tags1) => completeCols ctx idx pfx unassigned rest (pos + 1) tags1

/-- Step 2 of `checkCompound` (lines 153-213): iterate over the children
already assigned a compound index.  NOTE (source line 166): the multikey
check indexes the catalog with the loop counter `i` over `assignedCompound`,
not with the tagged index `childTag->index`. -/
def completeAssigned (ctx : CCCtx) (pfx : String)
    (unassigned : List (NodePath × MatchExpression)) :
    Nat → List (NodePath × MatchExpression) → Tags → Option Tags
  | _, [], tags => some tags
  | i, (q, _c) :: rest, tags =>
    match getTag tags q with
    | none => none                    -- cast/deref of a NULL tag
    | some childTag =>
      match ctx.indices.get? i with   -- line 166: (*_indices)[i].multikey
      | none => none                  -- unchecked catalog access
      | some iei =>
        if iei.multikey then completeAssigned ctx pfx unassigned (i + 1) rest tags
        else
          match ctx.indices.get? childTag.index with
          | none => none              -- unchecked catalog access (line 168)
          | some ie =>
            match ie.keyPattern with
            | [] => none              -- verify(it.more()) at line 174
            | [_] => none             -- verify(it.more()) at line 174
            | _ :: restCols =>
              match completeCols ctx childTag.index pfx unassigned restCols 1 tags with
              | none => none
              | some tags1 => completeAssigned ctx pfx unassigned (i + 1) rest tags1

/-- The body of `checkCompound` run at one conjunction node (lines
123-214). -/
def checkCompoundAnd (ctx : CCCtx) (pfx : String) (p : NodePath)
    (cs : List MatchExpression) (tags : Tags) : Option Tags :=
  match partitionChildren ctx tags p 0 cs with
  | none => none
  | some (assigned, unassigned) => completeAssigned ctx pfx unassigned 0 assigned tags

mutual

/-- `PlanEnumerator::checkCompound` (lines 122-226): top-down traversal; at
every conjunction run the local completion, extend the running prefix when
descending through an array-scoped node with a non-empty path. -/
def checkCompound (ctx : CCCtx) (pfx : String) (p : NodePath)
    (e : MatchExpression) (tags : Tags) : Option Tags :=
  match e with
  | .node mt path _ cs =>
    let step1 := if mt = .AND then checkCompoundAnd ctx pfx p cs tags else some tags
    match step1 with
    | none => none
    | some tags1 =>
      let pfx1 := if arrayUsesIndexOnChildren mt && path ≠ "" then pfx ++ path ++ "." else pfx
      checkCompoundKids ctx pfx1 p 0 cs tags1

/-- Children loop of `checkCompound` (lines 223-225). -/
def checkCompoundKids (ctx : CCCtx) (pfx : String) (p : NodePath) :
    Nat → List MatchExpression → Tags → Option Tags
  | _, [], tags => some tags
  | i, c :: rest, tags =>
    match checkCompound ctx pfx (p ++ [i]) c tags with
    | none => none
    | some t1 => checkCompoundKids ctx pfx p (i + 1) rest t1

end

/-- The enumerator after `init()`: the built memo state, the tag state of
the stored tree, and the `_done` flag. -/
structure PlanEnumerator where
  root : MatchExpression
  indices : List IndexEntry
  st : PrepState
  tags : Tags
  done : Bool

/-- `PlanEnumerator::init` (lines 35-61): build the memo (the tree's
relevance tags are consumed by the build and then cleared by
`_root->resetTag()`, so the tag state starts empty), and if the root is
indexable, tag the first solution and run compound completion.  `none`
models a `verify` failure (process abort) inside `tagMemo`/`checkCompound`.
The fuel passed to `tagMemo` is `_inOrderCount`, which always suffices
because cross-memo references point to strictly smaller ids. -/
def initEnum (root : MatchExpression) (indices : List IndexEntry) :
    Option PlanEnumerator :=
  let r := prepMemo [] root initState
  let st := r.1
  if !r.2 then some ⟨root, indices, st, [], true⟩
  else
    match tagMemo ⟨st.memo, st.curEnum⟩ st.inOrderCount
        (lookupNodeId st.nodeToId []) [] with
    | none => none
    | some tags1 =>
      match checkCompound ⟨indices, st.memo, st.nodeToId⟩ "" [] root tags1 with
      | none => none
      | some tags2 => some ⟨root, indices, st, tags2, false⟩

/-- `PlanEnumerator::getNext` (lines 228-241): yields a tagged clone of the
tree (modelled as the tree paired with its tag state; the external
`tagForSort`/`sortUsingTags` post-passes are out of scope), clears the
stored tree's tags and marks the enumerator done. -/
def getNext (en : PlanEnumerator) :
    Option (MatchExpression × Tags) × PlanEnumerator :=
  if en.done then (none, en)
  else (some (en.root, en.tags), { en with tags := [], done := true })

/-- The result of the `n`-th call of `getNext` (0-based) starting from
`en`. -/
def getNextN : Nat → PlanEnumerator → Option (MatchExpression × Tags) × PlanEnumerator
  | 0, en => getNext en
  | k + 1, en => getNextN k (getNext en).2

/-!
Reference layer: pure, state-free descriptions of what one `prepMemo` call
appends to the enumerator state, proved equal to the stateful functions
below.  `msize` counts the memo entries a subtree creates (a leaf never
recurses into children, mirroring the source). -/

mutual

/-- Number of memo entries created by `prepMemo` for this subtree. -/
def msize : MatchExpression → Nat
  | .node mt _ _ cs =>
    if nodeCanUseIndexOnOwnField mt then 1 else 1 + msizeList cs

def msizeList : List MatchExpression → Nat
  | [] => 0
  | c :: rest => msize c + msizeList rest

end

/-- Sum of `msize` over the first `k` children. -/
def msizeUpTo : List MatchExpression → Nat → Nat
  | _, 0 => 0
  | [], _ + 1 => 0
  | c :: rest, k + 1 => msize c + msizeUpTo rest k

/-- The memo id `prepMemo` assigns to the root of a subtree built with
`inOrderCount = base` on entry (its own entry is created last). -/
def rootIdOf (base : Nat) (e : MatchExpression) : Nat := base + msize e - 1

mutual

/-- The boolean `prepMemo` returns, which depends only on the tree. -/
def indexable : MatchExpression → Bool
  | .node mt _ rt cs =>
    if arrayUsesIndexOnChildren mt then anyIndexable cs
    else if nodeCanUseIndexOnOwnField mt then
      match rt with
      | some r => decide (0 < r.first.length)
      | none => false
    else if isLogical mt then
      if mt = .OR then allIndexable cs else anyIndexable cs
    else false

def anyIndexable : List MatchExpression → Bool
  | [] => false
  | c :: rest => indexable c || anyIndexable rest

def allIndexable : List MatchExpression → Bool
  | [] => true
  | c :: rest => indexable c && allIndexable rest

end

/-- Options collected for an AND / array-scoped node: one single-element
option per indexable child, in child order. -/
def collectOpts (base : Nat) : List MatchExpression → List (List Nat)
  | [] => []
  | c :: rest =>
    (if indexable c then [[rootIdOf base c]] else []) ++
      collectOpts (base + msize c) rest

/-- The `geoNearChild` value tracked by the AND children loop: position (in
the collected options) of the last option coming from a geo-nearest
predicate, starting from `accLen` already-collected options and previous
value `geo`. -/
def geoAux (accLen : Nat) (geo : Option Nat) : List MatchExpression → Option Nat
  | [] => geo
  | c :: rest =>
    if indexable c then
      geoAux (accLen + 1)
        (if c.matchType = .GEO_NEAR then some accLen else geo) rest
    else geoAux accLen geo rest

/-- The final options list of an AND node: the collected options, with the
last geo-nearest option swapped to position 0 (lines 348-350). -/
def andFinal (base : Nat) (cs : List MatchExpression) : List (List Nat) :=
  let opts := collectOpts base cs
  match geoAux 0 none cs with
  | some g => if g ≠ 0 then swapFirst opts g else opts
  | none => opts

/-- Memo ids of the children, in child order (what the OR branch stores). -/
def childRootIds (base : Nat) : List MatchExpression → List Nat
  | [] => []
  | c :: rest => rootIdOf base c :: childRootIds (base + msize c) rest

/-- The memo entry `prepMemo` creates for the node itself. -/
def ownEntry (p : NodePath) (base : Nat) (e : MatchExpression) : NodeSolution :=
  match e with
  | .node mt _ rt cs =>
    if arrayUsesIndexOnChildren mt then .andSolution (collectOpts base cs)
    else if nodeCanUseIndexOnOwnField mt then
      .pred (match rt with | some r => r.first | none => [])
        (match rt with | some r => r.notFirst | none => []) p
    else if mt = .OR then .orSolution (childRootIds base cs)
    else .andSolution (andFinal base cs)

mutual

/-- All memo entries created for a subtree, in id order: the child blocks
followed by the node's own entry (post-order).  A leaf creates only its own
entry. -/
def memoOf (p : NodePath) (base : Nat) (e : MatchExpression) : List NodeSolution :=
  match e with
  | .node mt _ _ cs =>
    if nodeCanUseIndexOnOwnField mt then [ownEntry p base e]
    else memoOfList p base 0 cs ++ [ownEntry p base e]

def memoOfList (p : NodePath) (base : Nat) (i : Nat) :
    List MatchExpression → List NodeSolution
  | [] => []
  | c :: rest => memoOf (p ++ [i]) base c ++ memoOfList p (base + msize c) (i + 1) rest

end

mutual

/-- The `_nodeToId` pairs a subtree prepends, newest first: the node's own
pair, then the children's pairs in reverse child order. -/
def pairsOf (p : NodePath) (base : Nat) (e : MatchExpression) :
    List (NodePath × Nat) :=
  match e with
  | .node mt _ _ cs =>
    if nodeCanUseIndexOnOwnField mt then [(p, base)]
    else (p, rootIdOf base e) :: pairsOfListRev p base 0 cs

def pairsOfListRev (p : NodePath) (base : Nat) (i : Nat) :
    List MatchExpression → List (NodePath × Nat)
  | [] => []
  | c :: rest =>
    pairsOfListRev p (base + msize c) (i + 1) rest ++ pairsOf (p ++ [i]) base c

end

mutual

/-- The `_curEnum` pairs a subtree prepends (OR entries are skipped by the
source; all stored values are 0). -/
def curOf (p : NodePath) (base : Nat) (e : MatchExpression) : List (Nat × Nat) :=
  match e with
  | .node mt _ _ cs =>
    if nodeCanUseIndexOnOwnField mt then [(base, 0)]
    else if mt = .OR then curOfListRev p base 0 cs
    else (rootIdOf base e, 0) :: curOfListRev p base 0 cs

def curOfListRev (p : NodePath) (base : Nat) (i : Nat) :
    List MatchExpression → List (Nat × Nat)
  | [] => []
  | c :: rest =>
    curOfListRev p (base + msize c) (i + 1) rest ++ curOf (p ++ [i]) base c

end

/-- The state after `prepMemo p e st`, described without state threading. -/
def afterPrep (p : NodePath) (e : MatchExpression) (st : PrepState) : PrepState :=
  ⟨st.inOrderCount + msize e,
   st.memo ++ memoOf p st.inOrderCount e,
   pairsOf p st.inOrderCount e ++ st.nodeToId,
   curOf p st.inOrderCount e ++ st.curEnum⟩

/-- Folding `afterPrep` over a list of children starting at child index `i`. -/
def afterPrepList (p : NodePath) (i : Nat) (cs : List MatchExpression)
    (st : PrepState) : PrepState :=
  match cs with
  | [] => st
  | c :: rest => afterPrepList p (i + 1) rest (afterPrep (p ++ [i]) c st)

mutual

/-- The paths of all nodes of a subtree (the node itself first). -/
def subtreePaths (p : NodePath) (e : MatchExpression) : List NodePath :=
  match e with
  | .node _ _ _ cs => p :: subtreePathsList p 0 cs

def subtreePathsList (p : NodePath) (i : Nat) :
    List MatchExpression → List NodePath
  | [] => []
  | c :: rest => subtreePaths (p ++ [i]) c ++ subtreePathsList p (i + 1) rest

end

mutual

/-- Well-formed input (spec §6): kinds and arities consistent — a leaf
indexable on its own field has no children. -/
def wf : MatchExpression → Bool
  | .node mt _ _ cs => (!nodeCanUseIndexOnOwnField mt || cs.isEmpty) && wfList cs

def wfList : List MatchExpression → Bool
  | [] => true
  | c :: rest => wf c && wfList rest

end

/-- Cross-memo references stored in an entry. -/
def entryRefs : NodeSolution → List Nat
  | .pred _ _ _ => []
  | .orSolution subs => subs
  | .andSolution opts => opts.flatten

/-- Basic state sanity: the memo arena has one entry per handed-out id
(true of every state reachable from `initState`). -/
def PrepState.ok (st : PrepState) : Prop := st.memo.length = st.inOrderCount

/-! ### Concrete inputs used by witnesses and counterexamples -/

/-- A single indexable leaf over field `a` with `first = [0]`. -/
def exLeafA : MatchExpression := .node .EQ "a" (some ⟨[0], []⟩) []

/-- One single-column index over `a`. -/
def exCatalogA : List IndexEntry := [⟨["a"], false⟩]

/-- `AND(A[first={1}], B[first={}, notFirst={1}])`: the compound-completion
scenario of the spec, with index 1 compound over `[a, b]`. -/
def exAndAB : MatchExpression :=
  .node .AND "" none
    [.node .EQ "a" (some ⟨[1], []⟩) [], .node .EQ "b" (some ⟨[], [1]⟩) []]

/-- Catalog for `exAndAB`: catalog position 0 is a multikey compound index
(never tagged by anything), catalog position 1 is the non-multikey compound
index `[a, b]` that the first child is tagged with. -/
def exCatalogBug : List IndexEntry := [⟨["x", "y"], true⟩, ⟨["a", "b"], false⟩]

/-- The mirror catalog: position 0 non-multikey, position 1 (the tagged
index `[a, b]`) multikey. -/
def exCatalogBug2 : List IndexEntry := [⟨["x", "y"], false⟩, ⟨["a", "b"], true⟩]

/-- An empty disjunction. -/
def exEmptyOr : MatchExpression := .node .OR "" none []

/-- An empty conjunction. -/
def exEmptyAnd : MatchExpression := .node .AND "" none []

/-- `AND(A[first={0}], GEO_NEAR g[first={1}])`: geo-nearest child at
position 1. -/
def exAndGeo : MatchExpression :=
  .node .AND "" none
    [.node .EQ "a" (some ⟨[0], []⟩) [],
     .node .GEO_NEAR "g" (some ⟨[1], []⟩) []]

/-- `OR(A[first={0}], B[first={1}])`. -/
def exOrAB : MatchExpression :=
  .node .OR "" none
    [.node .EQ "a" (some ⟨[0], []⟩) [], .node .EQ "b" (some ⟨[1], []⟩) []]

/-- The enumerator built from `exLeafA` / `exCatalogA` (used by witnesses). -/
def exEnumA : PlanEnumerator :=
  (initEnum exLeafA exCatalogA).getD ⟨exLeafA, exCatalogA, initState, [], true⟩

/-- Completer context for `exAndAB` over `exCatalogBug2` (used by
witnesses). -/
def exCtxBug2 : CCCtx :=
  ⟨exCatalogBug2, (prepMemo [] exAndAB initState).1.memo,
   (prepMemo [] exAndAB initState).1.nodeToId⟩

/-- Tag state after the tagger on `exAndAB`: child `a` tagged `{1, 0}`. -/
def exTags0 : Tags := [([0], ⟨1, 0⟩)]

/-- Guarantee of one tagger step relative to a memo context: old tags
persist, and every newly installed tag sits on a previously untagged leaf,
has position 0, and its index is the cursor-selected element of the `first`
list of the Predicate entry owning that leaf. -/
def TaggerStep (ctx : MemoCtx) (tags tags' : Tags) : Prop :=
  (∀ q t, getTag tags q = some t → getTag tags' q = some t) ∧
  (∀ q t, getTag tags' q = some t →
    getTag tags q = some t ∨
    (getTag tags q = none ∧ t.pos = 0 ∧
      ∃ id first nf, ctx.memo.get? id = some (.pred first nf q) ∧
        first.get? (curEnumD ctx.curEnum id) = some t.index ∧ t.index ∈ first))

/-- Downward-closure of a completer tag state `tags` relative to the state
`tags0` before completion: every tag is either original, or was added by the
completer at a position ≥ 1 on a member of the `unassigned` scan list, its
index already tags (at position 0, in `tags0`) some member of the `srcs`
list of compound-assigned children, and every intermediate position
`1..pos` of the same index is present on some `unassigned` member. -/
def DownClosed (unassigned srcs : List (NodePath × MatchExpression))
    (tags0 tags : Tags) : Prop :=
  ∀ x t, getTag tags x = some t →
    getTag tags0 x = some t ∨
    (1 ≤ t.pos ∧ (∃ j c, unassigned.get? j = some (x, c)) ∧
     (∃ x0 c0, (x0, c0) ∈ srcs ∧ getTag tags0 x0 = some ⟨t.index, 0⟩) ∧
     (∀ q, 1 ≤ q → q ≤ t.pos →
       ∃ x' j' c', unassigned.get? j' = some (x', c') ∧
         getTag tags x' = some ⟨t.index, q⟩))

/-! ### Basic lemmas -/

theorem MatchExpression.inductOn {motive : MatchExpression → Prop}
    (h : ∀ mt path rt cs, (∀ c ∈ cs, motive c) → motive (.node mt path rt cs)) :
    ∀ e, motive e := by
  have aux : ∀ (n : Nat) (e : MatchExpression), sizeOf e ≤ n → motive e := by
    intro n
    induction n with
    | zero =>
      intro e h0
      cases e with
      | node mt path rt cs => simp [MatchExpression.node.sizeOf_spec] at h0
    | succ n ih =>
      intro e hle
      cases e with
      | node mt path rt cs =>
        apply h
        intro c hc
        apply ih
        have h1 := List.sizeOf_lt_of_mem hc
        have h2 : sizeOf (MatchExpression.node mt path rt cs) =
            1 + sizeOf mt + sizeOf path + sizeOf rt + sizeOf cs := by
          simp [MatchExpression.node.sizeOf_spec]
        omega
  intro e
  exact aux (sizeOf e) e le_rfl

theorem alookup_cons_self {α β : Type} [DecidableEq α] (k : α) (v : β)
    (rest : List (α × β)) : alookup ((k, v) :: rest) k = some v := by
  simp [alookup]

theorem alookup_cons_ne {α β : Type} [DecidableEq α] {k q : α} (v : β)
    (rest : List (α × β)) (h : k ≠ q) :
    alookup ((k, v) :: rest) q = alookup rest q := by
  simp [alookup, h]

theorem alookup_append {α β : Type} [DecidableEq α] (A B : List (α × β)) (q : α) :
    alookup (A ++ B) q =
      match alookup A q with
      | some v => some v
      | none => alookup B q := by
  induction A with
  | nil => simp [alookup]
  | cons kv rest ih =>
    by_cases h : kv.1 = q
    · obtain ⟨k, v⟩ := kv
      simp at h
      subst h
      simp [alookup]
    · obtain ⟨k, v⟩ := kv
      simp at h
      simp [alookup, h, ih]

theorem alookup_eq_none {α β : Type} [DecidableEq α] (A : List (α × β)) (q : α)
    (h : ∀ kv ∈ A, kv.1 ≠ q) : alookup A q = none := by
  induction A with
  | nil => simp [alookup]
  | cons kv rest ih =>
    obtain ⟨k, v⟩ := kv
    have hk : k ≠ q := h (k, v) (by simp)
    rw [alookup_cons_ne v rest hk]
    exact ih fun kv hkv => h kv (by simp [hkv])

theorem alookup_append_right {α β : Type} [DecidableEq α] (A B : List (α × β))
    (q : α) (h : alookup A q = none) : alookup (A ++ B) q = alookup B q := by
  rw [alookup_append, h]

theorem alookup_append_left {α β : Type} [DecidableEq α] (A B : List (α × β))
    (q : α) {v : β} (h : alookup A q = some v) : alookup (A ++ B) q = some v := by
  rw [alookup_append, h]

theorem alookup_isSome_mem {α β : Type} [DecidableEq α]
    {A : List (α × β)} {q : α} {v : β} (h : alookup A q = some v) : (q, v) ∈ A := by
  induction A with
  | nil => simp [alookup] at h
  | cons kv rest ih =>
    obtain ⟨k, w⟩ := kv
    by_cases hk : k = q
    · subst hk
      rw [alookup_cons_self] at h
      cases h
      simp
    · rw [alookup_cons_ne _ _ hk] at h
      simp [ih h]

theorem msize_pos : ∀ e, 0 < msize e := by
  intro e
  cases e with
  | node mt path rt cs =>
    by_cases h : nodeCanUseIndexOnOwnField mt <;> simp [msize, h]

theorem msizeList_eq (c : MatchExpression) (rest : List MatchExpression) :
    msizeList (c :: rest) = msize c + msizeList rest := by
  simp [msizeList]

theorem msize_mem_le (c : MatchExpression) :
    ∀ (cs : List MatchExpression), c ∈ cs → msize c ≤ msizeList cs := by
  intro cs
  induction cs with
  | nil => intro h; simp at h
  | cons d rest ih =>
    intro h
    rcases List.mem_cons.mp h with h1 | h1
    · subst h1
      simp [msizeList]
    · have := ih h1
      simp [msizeList]
      omega

theorem msizeUpTo_zero (cs : List MatchExpression) : msizeUpTo cs 0 = 0 := by
  cases cs <;> simp [msizeUpTo]

theorem msizeUpTo_succ (c : MatchExpression) (rest : List MatchExpression)
    (k : Nat) : msizeUpTo (c :: rest) (k + 1) = msize c + msizeUpTo rest k := by
  simp [msizeUpTo]

theorem msizeUpTo_le (cs : List MatchExpression) (k : Nat) :
    msizeUpTo cs k ≤ msizeList cs := by
  induction cs generalizing k with
  | nil => cases k <;> simp [msizeUpTo]
  | cons c rest ih =>
    cases k with
    | zero => simp [msizeUpTo]
    | succ k =>
      have := ih k
      simp [msizeUpTo, msizeList]
      omega

/-! ### Structure of the reference build: lengths, heads, key shapes -/

theorem memoOfList_length_of (p : NodePath) (cs : List MatchExpression)
    (H : ∀ c ∈ cs, ∀ (q : NodePath) (base : Nat), (memoOf q base c).length = msize c) :
    ∀ (base i : Nat), (memoOfList p base i cs).length = msizeList cs := by
  induction cs with
  | nil => intro base i; simp [memoOfList, msizeList]
  | cons c rest ih =>
    intro base i
    have h1 := H c (by simp) (p ++ [i]) base
    have h2 := ih (fun d hd => H d (by simp [hd])) (base + msize c) (i + 1)
    simp [memoOfList, msizeList, h1, h2]

theorem memoOf_length : ∀ (e : MatchExpression) (p : NodePath) (base : Nat),
    (memoOf p base e).length = msize e := by
  have main := MatchExpression.inductOn
    (motive := fun e => ∀ (p : NodePath) (base : Nat),
      (memoOf p base e).length = msize e)
  intro e
  apply main
  intro mt path rt cs ih p base
  by_cases h : nodeCanUseIndexOnOwnField mt
  · simp [memoOf, msize, h]
  · have hl := memoOfList_length_of p cs (fun c hc q b => ih c hc q b) base 0
    simp [memoOf, msize, h, hl]
    omega

theorem memoOfList_length (p : NodePath) (cs : List MatchExpression)
    (base i : Nat) : (memoOfList p base i cs).length = msizeList cs :=
  memoOfList_length_of p cs (fun c _ q b => memoOf_length c q b) base i

theorem memoOf_own (e : MatchExpression) (p : NodePath) (base : Nat) :
    (memoOf p base e).get? (msize e - 1) = some (ownEntry p base e) := by
  cases e with
  | node mt path rt cs =>
    by_cases h : nodeCanUseIndexOnOwnField mt
    · simp [memoOf, msize, h]
    · have hl := memoOfList_length p cs base 0
      have hm : msize (MatchExpression.node mt path rt cs) - 1 = msizeList cs := by
        simp [msize, h]
      have hu : memoOf p base (MatchExpression.node mt path rt cs) =
          memoOfList p base 0 cs ++
            [ownEntry p base (MatchExpression.node mt path rt cs)] := by
        simp [memoOf, h]
      rw [hm, hu, List.get?_append_right (by omega)]
      simp [hl]

theorem pairsOf_head (e : MatchExpression) (p : NodePath) (base : Nat) :
    ∃ tl, pairsOf p base e = (p, rootIdOf base e) :: tl := by
  cases e with
  | node mt path rt cs =>
    by_cases h : nodeCanUseIndexOnOwnField mt
    · refine ⟨[], ?_⟩
      simp [pairsOf, h, rootIdOf, msize]
    · exact ⟨pairsOfListRev p base 0 cs, by simp [pairsOf, h]⟩

theorem alookup_pairsOf_self (e : MatchExpression) (p : NodePath) (base : Nat) :
    alookup (pairsOf p base e) p = some (rootIdOf base e) := by
  obtain ⟨tl, htl⟩ := pairsOf_head e p base
  rw [htl, alookup_cons_self]

theorem pairsOfListRev_keyShape_of (p : NodePath) (cs : List MatchExpression)
    (H : ∀ c ∈ cs, ∀ (q : NodePath) (base : Nat), ∀ kv ∈ pairsOf q base c,
      ∃ s, kv.1 = q ++ s) :
    ∀ (base i : Nat), ∀ kv ∈ pairsOfListRev p base i cs,
      ∃ j s, i ≤ j ∧ j < i + cs.length ∧ kv.1 = p ++ [j] ++ s := by
  induction cs with
  | nil => intro base i kv hkv; simp [pairsOfListRev] at hkv
  | cons c rest ih =>
    intro base i kv hkv
    rw [pairsOfListRev] at hkv
    rcases List.mem_append.mp hkv with hin | hin
    · obtain ⟨j, s, hj1, hj2, he⟩ :=
        ih (fun d hd => H d (by simp [hd])) (base + msize c) (i + 1) kv hin
      exact ⟨j, s, by omega, by simp at hj2 ⊢; omega, he⟩
    · obtain ⟨s, hs⟩ := H c (by simp) (p ++ [i]) base kv hin
      exact ⟨i, s, le_rfl, by simp, by simp [hs]⟩

theorem pairsOf_keyShape : ∀ (e : MatchExpression) (p : NodePath) (base : Nat),
    ∀ kv ∈ pairsOf p base e, ∃ s, kv.1 = p ++ s := by
  have main := MatchExpression.inductOn
    (motive := fun e => ∀ (p : NodePath) (base : Nat),
      ∀ kv ∈ pairsOf p base e, ∃ s, kv.1 = p ++ s)
  intro e
  apply main
  intro mt path rt cs ih p base kv hkv
  by_cases h : nodeCanUseIndexOnOwnField mt
  · simp [pairsOf, h] at hkv
    exact ⟨[], by simp [hkv]⟩
  · rw [pairsOf] at hkv
    simp only [h] at hkv
    rcases List.mem_cons.mp (by simpa using hkv) with heq | hin
    · exact ⟨[], by simp [heq]⟩
    · obtain ⟨j, s, _, _, he⟩ :=
        pairsOfListRev_keyShape_of p cs (fun c hc q b => ih c hc q b) base 0 kv hin
      exact ⟨[j] ++ s, by simp [he]⟩

theorem pairsOfListRev_keyShape (p : NodePath) (cs : List MatchExpression)
    (base i : Nat) : ∀ kv ∈ pairsOfListRev p base i cs,
      ∃ j s, i ≤ j ∧ j < i + cs.length ∧ kv.1 = p ++ [j] ++ s :=
  pairsOfListRev_keyShape_of p cs (fun c _ q b => pairsOf_keyShape c q b) base i

theorem alookup_pairsOfListRev_child (p : NodePath) :
    ∀ (cs : List MatchExpression) (k : Nat) (c' : MatchExpression)
      (base i : Nat), cs.get? k = some c' →
      alookup (pairsOfListRev p base i cs) (p ++ [i + k]) =
        some (rootIdOf (base + msizeUpTo cs k) c') := by
  intro cs
  induction cs with
  | nil => intro k c' base i h; simp at h
  | cons c rest ih =>
    intro k c' base i h
    cases k with
    | zero =>
      simp only [List.get?_cons_zero, Option.some.injEq] at h
      subst h
      rw [pairsOfListRev]
      have hnone : alookup (pairsOfListRev p (base + msize c) (i + 1) rest)
          (p ++ [i + 0]) = none := by
        apply alookup_eq_none
        intro kv hkv hq
        obtain ⟨j, s, hj1, _, he⟩ :=
          pairsOfListRev_keyShape p rest (base + msize c) (i + 1) kv hkv
        have hps : p ++ ([j] ++ s) = p ++ [i + 0] := by
          rw [← List.append_assoc, ← he, hq]
        have h2 := List.append_cancel_left hps
        cases s with
        | nil => simp at h2; omega
        | cons x xs => simp at h2
      rw [alookup_append_right _ _ _ hnone]
      simp only [Nat.add_zero]
      rw [alookup_pairsOf_self, msizeUpTo_zero, Nat.add_zero]
    | succ k =>
      rw [pairsOfListRev]
      have harith : i + (k + 1) = i + 1 + k := by omega
      have hr := ih k c' (base + msize c) (i + 1) (by simpa using h)
      rw [harith, alookup_append_left _ _ _ hr, msizeUpTo_succ]
      simp only [rootIdOf, Option.some.injEq]
      omega

/-! ### The state after a build step, unfolded -/

theorem afterPrep_ok (p : NodePath) (e : MatchExpression) (st : PrepState)
    (h : st.ok) : (afterPrep p e st).ok := by
  simp only [PrepState.ok, afterPrep, List.length_append, memoOf_length] at h ⊢
  omega

theorem afterPrepList_count (p : NodePath) :
    ∀ (cs : List MatchExpression) (i : Nat) (st : PrepState),
      (afterPrepList p i cs st).inOrderCount = st.inOrderCount + msizeList cs := by
  intro cs
  induction cs with
  | nil => intro i st; simp [afterPrepList, msizeList]
  | cons c rest ih =>
    intro i st
    rw [afterPrepList, ih, msizeList_eq]
    simp [afterPrep]
    omega

theorem afterPrepList_memo (p : NodePath) :
    ∀ (cs : List MatchExpression) (i : Nat) (st : PrepState),
      (afterPrepList p i cs st).memo =
        st.memo ++ memoOfList p st.inOrderCount i cs := by
  intro cs
  induction cs with
  | nil => intro i st; simp [afterPrepList, memoOfList]
  | cons c rest ih =>
    intro i st
    rw [afterPrepList, ih, memoOfList]
    simp [afterPrep]

theorem afterPrepList_node (p : NodePath) :
    ∀ (cs : List MatchExpression) (i : Nat) (st : PrepState),
      (afterPrepList p i cs st).nodeToId =
        pairsOfListRev p st.inOrderCount i cs ++ st.nodeToId := by
  intro cs
  induction cs with
  | nil => intro i st; simp [afterPrepList, pairsOfListRev]
  | cons c rest ih =>
    intro i st
    rw [afterPrepList, ih, pairsOfListRev]
    simp [afterPrep]

theorem afterPrepList_cur (p : NodePath) :
    ∀ (cs : List MatchExpression) (i : Nat) (st : PrepState),
      (afterPrepList p i cs st).curEnum =
        curOfListRev p st.inOrderCount i cs ++ st.curEnum := by
  intro cs
  induction cs with
  | nil => intro i st; simp [afterPrepList, curOfListRev]
  | cons c rest ih =>
    intro i st
    rw [afterPrepList, ih, curOfListRev]
    simp [afterPrep]

theorem afterPrepList_ok (p : NodePath) (cs : List MatchExpression) (i : Nat)
    (st : PrepState) (h : st.ok) : (afterPrepList p i cs st).ok := by
  simp only [PrepState.ok] at h ⊢
  rw [afterPrepList_count, afterPrepList_memo, List.length_append,
    memoOfList_length, h]

/-- The id `prepMemo` hands to a just-built child is found at the head of
the updated `_nodeToId`. -/
theorem lookupNodeId_afterPrep (q : NodePath) (c : MatchExpression)
    (st : PrepState) :
    lookupNodeId (afterPrep q c st).nodeToId q = rootIdOf st.inOrderCount c := by
  simp only [lookupNodeId, afterPrep]
  rw [alookup_append_left _ _ _ (alookup_pairsOf_self c q st.inOrderCount)]
  rfl

/-- The just-built child's own memo entry, read back from the updated
state. -/
theorem memoGet_afterPrep (q : NodePath) (c : MatchExpression)
    (st : PrepState) (h : st.ok) :
    (afterPrep q c st).memo.get? (rootIdOf st.inOrderCount c) =
      some (ownEntry q st.inOrderCount c) := by
  simp only [afterPrep]
  have h1 : st.memo.length ≤ rootIdOf st.inOrderCount c := by
    have := msize_pos c
    simp only [PrepState.ok] at h
    simp only [rootIdOf]
    omega
  rw [List.get?_append_right h1]
  have h2 : rootIdOf st.inOrderCount c - st.memo.length = msize c - 1 := by
    have := msize_pos c
    simp only [PrepState.ok] at h
    simp only [rootIdOf]
    omega
  rw [h2, memoOf_own]

theorem collectOpts_pos : ∀ (cs : List MatchExpression) (base : Nat),
    decide (0 < (collectOpts base cs).length) = anyIndexable cs := by
  intro cs
  induction cs with
  | nil => intro base; simp [collectOpts, anyIndexable]
  | cons c rest ih =>
    intro base
    by_cases h : indexable c
    · simp [collectOpts, anyIndexable, h]
    · simp only [collectOpts, h, if_false, List.nil_append, anyIndexable,
        Bool.false_or]
      exact ih (base + msize c)

theorem childRootIds_length : ∀ (cs : List MatchExpression) (base : Nat),
    (childRootIds base cs).length = cs.length := by
  intro cs
  induction cs with
  | nil => intro base; simp [childRootIds]
  | cons c rest ih => intro base; simp [childRootIds, ih]

theorem childRootIds_get : ∀ (cs : List MatchExpression) (k : Nat)
    (c' : MatchExpression) (base : Nat), cs.get? k = some c' →
    (childRootIds base cs).get? k = some (rootIdOf (base + msizeUpTo cs k) c') := by
  intro cs
  induction cs with
  | nil => intro k c' base h; simp at h
  | cons c rest ih =>
    intro k c' base h
    cases k with
    | zero =>
      simp only [List.get?_cons_zero, Option.some.injEq] at h
      subst h
      simp [childRootIds, msizeUpTo_zero]
    | succ k =>
      simp only [List.get?_cons_succ] at h
      have := ih k c' (base + msize c) h
      simp only [childRootIds, List.get?_cons_succ, this, msizeUpTo_succ,
        Option.some.injEq, rootIdOf]
      omega

theorem swapFirst_length (l : List (List Nat)) (g : Nat) :
    (swapFirst l g).length = l.length := by
  simp [swapFirst]

theorem andFinal_pos (cs : List MatchExpression) (base : Nat) :
    decide (0 < (andFinal base cs).length) = anyIndexable cs := by
  cases hg : geoAux 0 none cs with
  | none =>
    simp only [andFinal, hg]
    exact collectOpts_pos cs base
  | some g =>
    by_cases h0 : g ≠ 0
    · simp only [andFinal, hg, if_pos h0]
      rw [show (swapFirst (collectOpts base cs) g).length =
          (collectOpts base cs).length from swapFirst_length _ _]
      exact collectOpts_pos cs base
    · simp only [andFinal, hg, if_neg h0]
      exact collectOpts_pos cs base

/-- The subnode list built by the OR branch equals the children's root
ids. -/
theorem orSubs_eq (p : NodePath) (cs : List MatchExpression) (st : PrepState) :
    (List.range cs.length).map
        (fun k => lookupNodeId (afterPrepList p 0 cs st).nodeToId (p ++ [k])) =
      childRootIds st.inOrderCount cs := by
  apply List.ext_get?
  intro n
  by_cases hn : n < cs.length
  · obtain ⟨c', hc'⟩ : ∃ c', cs.get? n = some c' :=
      ⟨cs.get ⟨n, hn⟩, List.get?_eq_get hn⟩
    rw [List.get?_map, List.get?_range hn]
    simp only [Option.map_some']
    rw [childRootIds_get cs n c' st.inOrderCount hc']
    rw [afterPrepList_node]
    simp only [lookupNodeId]
    have := alookup_pairsOfListRev_child p cs n c' st.inOrderCount 0 hc'
    rw [Nat.zero_add] at this
    rw [alookup_append_left _ _ _ this]
    rfl
  · rw [List.get?_map]
    have h1 : (List.range cs.length).get? n = none := by
      rw [List.get?_eq_none]
      simpa using Nat.le_of_not_lt hn
    have h2 : (childRootIds st.inOrderCount cs).get? n = none := by
      rw [List.get?_eq_none, childRootIds_length]
      omega
    rw [h1, h2]
    rfl

/-! ### Equivalence of `prepMemo` with the reference description -/

theorem classifier_not_array {mt : MatchType}
    (h : nodeCanUseIndexOnOwnField mt = true) :
    arrayUsesIndexOnChildren mt = false := by
  cases mt <;> simp_all [nodeCanUseIndexOnOwnField, arrayUsesIndexOnChildren]

theorem classifier_not_geo {mt : MatchType}
    (h : nodeCanUseIndexOnOwnField mt = false) : mt ≠ MatchType.GEO_NEAR := by
  cases mt <;> simp_all [nodeCanUseIndexOnOwnField]

theorem prepOrChildren_eq (p : NodePath) :
    ∀ (cs : List MatchExpression) (i : Nat) (st : PrepState), st.ok →
      (∀ c ∈ cs, ∀ (q : NodePath) (st' : PrepState), st'.ok →
        prepMemo q c st' = (afterPrep q c st', indexable c)) →
      prepOrChildren p i cs st = (afterPrepList p i cs st, allIndexable cs) := by
  intro cs
  induction cs with
  | nil => intro i st hok H; simp [prepOrChildren, afterPrepList, allIndexable]
  | cons c rest ih =>
    intro i st hok H
    have hc := H c (by simp) (p ++ [i]) st hok
    have hr := ih (i + 1) (afterPrep (p ++ [i]) c st) (afterPrep_ok _ _ _ hok)
      (fun d hd => H d (by simp [hd]))
    simp only [prepOrChildren, hc, hr, afterPrepList, allIndexable]

theorem prepArrayChildren_eq (p : NodePath) :
    ∀ (cs : List MatchExpression) (i : Nat) (st : PrepState), st.ok →
      (∀ c ∈ cs, ∀ (q : NodePath) (st' : PrepState), st'.ok →
        prepMemo q c st' = (afterPrep q c st', indexable c)) →
      prepArrayChildren p i cs st =
        (afterPrepList p i cs st, collectOpts st.inOrderCount cs) := by
  intro cs
  induction cs with
  | nil => intro i st hok H; simp [prepArrayChildren, afterPrepList, collectOpts]
  | cons c rest ih =>
    intro i st hok H
    have hc := H c (by simp) (p ++ [i]) st hok
    have hr := ih (i + 1) (afterPrep (p ++ [i]) c st) (afterPrep_ok _ _ _ hok)
      (fun d hd => H d (by simp [hd]))
    have hcount : (afterPrep (p ++ [i]) c st).inOrderCount =
        st.inOrderCount + msize c := rfl
    simp only [prepArrayChildren, hc, hr, lookupNodeId_afterPrep,
      afterPrepList, collectOpts, hcount]

theorem prepAndChildren_eq (p : NodePath) :
    ∀ (cs : List MatchExpression) (i : Nat) (st : PrepState)
      (acc : List (List Nat)) (geo : Option Nat), st.ok →
      (∀ c ∈ cs, ∀ (q : NodePath) (st' : PrepState), st'.ok →
        prepMemo q c st' = (afterPrep q c st', indexable c)) →
      prepAndChildren p i cs st acc geo =
        (afterPrepList p i cs st, acc ++ collectOpts st.inOrderCount cs,
         geoAux acc.length geo cs) := by
  intro cs
  induction cs with
  | nil =>
    intro i st acc geo hok H
    simp [prepAndChildren, afterPrepList, collectOpts, geoAux]
  | cons c rest ih =>
    intro i st acc geo hok H
    have hc := H c (by simp) (p ++ [i]) st hok
    have hok1 : (afterPrep (p ++ [i]) c st).ok := afterPrep_ok _ _ _ hok
    have hcount : (afterPrep (p ++ [i]) c st).inOrderCount =
        st.inOrderCount + msize c := rfl
    have hget := memoGet_afterPrep (p ++ [i]) c st hok
    by_cases hidx : indexable c
    · have hr := ih (i + 1) (afterPrep (p ++ [i]) c st) (acc ++ [[rootIdOf st.inOrderCount c]])
        (match ownEntry (p ++ [i]) st.inOrderCount c with
          | .pred _ _ _ =>
            if c.matchType = .GEO_NEAR then some ((acc ++ [[rootIdOf st.inOrderCount c]]).length - 1) else geo
          | _ => geo) hok1 (fun d hd => H d (by simp [hd]))
      cases c with
      | node mt' path' rt' cs' =>
        cases mt' <;>
          simp_all [prepAndChildren, lookupNodeId_afterPrep, collectOpts,
            geoAux, MatchExpression.matchType, ownEntry,
            arrayUsesIndexOnChildren, nodeCanUseIndexOnOwnField,
            afterPrepList, indexable]
    · have hr := ih (i + 1) (afterPrep (p ++ [i]) c st) acc geo hok1
        (fun d hd => H d (by simp [hd]))
      simp only [prepAndChildren, hc, hidx]
      simp only [Bool.false_eq_true, if_false]
      rw [hr, hcount]
      simp only [afterPrepList, collectOpts, hidx, if_false, List.nil_append,
        geoAux, Bool.false_eq_true]

set_option maxHeartbeats 2000000 in
theorem prepMemo_eq : ∀ (e : MatchExpression) (p : NodePath) (st : PrepState),
    st.ok → prepMemo p e st = (afterPrep p e st, indexable e) := by
  have main := MatchExpression.inductOn
    (motive := fun e => ∀ (p : NodePath) (st : PrepState), st.ok →
      prepMemo p e st = (afterPrep p e st, indexable e))
  intro e
  apply main
  intro mt path rt cs ih p st hok
  have H : ∀ c ∈ cs, ∀ (q : NodePath) (st' : PrepState), st'.ok →
      prepMemo q c st' = (afterPrep q c st', indexable c) := fun c hc => ih c hc
  have hcnt := afterPrepList_count p cs 0 st
  have hmemo := afterPrepList_memo p cs 0 st
  have hnode := afterPrepList_node p cs 0 st
  have hcur := afterPrepList_cur p cs 0 st
  have harith : st.inOrderCount + (1 + msizeList cs) - 1 =
      st.inOrderCount + msizeList cs := by omega
  cases mt with
  | ELEM_MATCH_OBJECT =>
    have har := prepArrayChildren_eq p cs 0 st hok H
    simp only [prepMemo, arrayUsesIndexOnChildren, har, hcnt, hmemo, hnode, hcur,
      afterPrep, ownEntry, memoOf, pairsOf, curOf, msize, rootIdOf, indexable,
      nodeCanUseIndexOnOwnField, isLogical, collectOpts_pos, if_true, if_false,
      Bool.false_eq_true, List.append_assoc, List.cons_append,
      Prod.mk.injEq, PrepState.mk.injEq]
    simp [harith]
    omega
  | EQ =>
    cases rt with
    | none =>
      simp [prepMemo, arrayUsesIndexOnChildren, nodeCanUseIndexOnOwnField,
        afterPrep, ownEntry, memoOf, pairsOf, curOf, msize, rootIdOf, indexable]
    | some r =>
      simp [prepMemo, arrayUsesIndexOnChildren, nodeCanUseIndexOnOwnField,
        afterPrep, ownEntry, memoOf, pairsOf, curOf, msize, rootIdOf, indexable]
  | GEO_NEAR =>
    cases rt with
    | none =>
      simp [prepMemo, arrayUsesIndexOnChildren, nodeCanUseIndexOnOwnField,
        afterPrep, ownEntry, memoOf, pairsOf, curOf, msize, rootIdOf, indexable]
    | some r =>
      simp [prepMemo, arrayUsesIndexOnChildren, nodeCanUseIndexOnOwnField,
        afterPrep, ownEntry, memoOf, pairsOf, curOf, msize, rootIdOf, indexable]
  | OR =>
    have hor := prepOrChildren_eq p cs 0 st hok H
    have hsubs := orSubs_eq p cs st
    rw [afterPrepList_node] at hsubs
    simp only [prepMemo, arrayUsesIndexOnChildren, nodeCanUseIndexOnOwnField,
      isLogical, hor, hcnt, hmemo, hnode, hcur, hsubs,
      afterPrep, ownEntry, memoOf, pairsOf, curOf, msize, rootIdOf, indexable,
      if_true, if_false, Bool.false_eq_true, List.append_assoc, List.cons_append,
      Prod.mk.injEq, PrepState.mk.injEq]
    simp [harith, hsubs]
    omega
  | AND =>
    have hand := prepAndChildren_eq p cs 0 st [] none hok H
    have hfin : (match geoAux 0 none cs with
        | some g => if g ≠ 0 then swapFirst (collectOpts st.inOrderCount cs) g
            else collectOpts st.inOrderCount cs
        | none => collectOpts st.inOrderCount cs) = andFinal st.inOrderCount cs := by
      simp [andFinal]
    simp only [prepMemo, arrayUsesIndexOnChildren, nodeCanUseIndexOnOwnField,
      isLogical, hand, hcnt, hmemo, hnode, hcur,
      afterPrep, ownEntry, memoOf, pairsOf, curOf, msize, rootIdOf, indexable,
      if_true, if_false, Bool.false_eq_true, List.append_assoc, List.cons_append,
      List.nil_append, List.length_nil, hfin, andFinal_pos,
      Prod.mk.injEq, PrepState.mk.injEq]
    simp [harith]
    omega


/-! ### Boundary behavior of empty logical nodes (claim C2) -/

/-- C2 (amended): an empty conjunction builds a zero-option AndChoice and
reports not indexable; an empty disjunction builds a zero-subnode OrAll but
reports **indexable** (`indexed` starts `true` at line 290 and the loop
body never runs). -/
theorem prepMemo_empty_logical (p : NodePath) (path : String)
    (rt : Option RelevantTag) (st : PrepState) (hok : st.ok) :
    (prepMemo p (.node .AND path rt []) st).2 = false ∧
    (prepMemo p (.node .AND path rt []) st).1.memo.get? st.inOrderCount =
      some (.andSolution []) ∧
    (prepMemo p (.node .OR path rt []) st).2 = true ∧
    (prepMemo p (.node .OR path rt []) st).1.memo.get? st.inOrderCount =
      some (.orSolution []) := by
  have h1 := prepMemo_eq (.node .AND path rt []) p st hok
  have h2 := prepMemo_eq (.node .OR path rt []) p st hok
  have hok' : st.memo.length = st.inOrderCount := hok
  rw [h1, h2]
  refine ⟨rfl, ?_, rfl, ?_⟩ <;>
    simp [afterPrep, memoOf, memoOfList, ownEntry, andFinal, collectOpts,
      geoAux, childRootIds, arrayUsesIndexOnChildren, nodeCanUseIndexOnOwnField,
      List.get?_append_right, hok']

/-- Closed-form check of `prepMemo_empty_logical` at a concrete state. -/
theorem prepMemo_empty_logical_witness :
    (prepMemo [] (.node .AND "" none []) initState).2 = false ∧
    (prepMemo [] (.node .AND "" none []) initState).1.memo.get? 0 =
      some (.andSolution []) ∧
    (prepMemo [] (.node .OR "" none []) initState).2 = true ∧
    (prepMemo [] (.node .OR "" none []) initState).1.memo.get? 0 =
      some (.orSolution []) :=
  prepMemo_empty_logical [] "" none initState rfl

/-- C2 (counterexample): the claim "an empty disjunction reports
indexable = false" is refuted — the build returns `true` for a zero-child
OR (while indeed storing an OrAll with zero subnodes). -/
theorem emptyOr_indexable_counterexample :
    (prepMemo [] exEmptyOr initState).2 = true ∧
    (prepMemo [] exEmptyOr initState).1.memo.get? 0 = some (.orSolution []) := by
  constructor <;> rfl

/-! ### getNext (claim C4) -/

theorem getNextN_done : ∀ (k : Nat) (en : PlanEnumerator), en.done = true →
    (getNextN k en).1 = none ∧ (getNextN k en).2.done = true := by
  intro k
  induction k with
  | zero => intro en h; simp [getNextN, getNext, h]
  | succ k ih =>
    intro en h
    have hstep : getNext en = (none, en) := by simp [getNext, h]
    rw [getNextN, hstep]
    exact ih en h

theorem getNext_sets_done (en : PlanEnumerator) : (getNext en).2.done = true := by
  by_cases h : en.done <;> simp [getNext, h]

/-- C4: after a successful `init`, the first `getNext` yields a tagged clone
of the tree exactly when the root is indexable (and returns false
otherwise), and every subsequent call returns false. -/
theorem c4_getNext_spec (root : MatchExpression) (indices : List IndexEntry)
    (en : PlanEnumerator) (h : initEnum root indices = some en) :
    ((getNextN 0 en).1.isSome = indexable root) ∧
    (indexable root = true → (getNextN 0 en).1 = some (root, en.tags)) ∧
    (∀ k : Nat, (getNextN (k + 1) en).1 = none) := by
  have heq := prepMemo_eq root [] initState rfl
  rw [initEnum] at h
  simp only [heq] at h
  by_cases hidx : indexable root
  · simp only [hidx, Bool.not_true, Bool.false_eq_true, if_false] at h
    cases htm : tagMemo ⟨(afterPrep [] root initState).memo,
        (afterPrep [] root initState).curEnum⟩
        (afterPrep [] root initState).inOrderCount
        (lookupNodeId (afterPrep [] root initState).nodeToId []) [] with
    | none =>
      simp only [htm] at h
      exact Option.noConfusion h
    | some tags1 =>
      simp only [htm] at h
      cases hcc : checkCompound ⟨indices, (afterPrep [] root initState).memo,
          (afterPrep [] root initState).nodeToId⟩ "" [] root tags1 with
      | none =>
        simp only [hcc] at h
        exact Option.noConfusion h
      | some tags2 =>
        simp only [hcc] at h
        have hen : en = ⟨root, indices, afterPrep [] root initState, tags2, false⟩ := by
          cases h; rfl
        subst hen
        refine ⟨?_, ?_, ?_⟩
        · simp [getNextN, getNext, hidx]
        · intro _; simp [getNextN, getNext]
        · intro k
          rw [getNextN]
          exact (getNextN_done k _ (getNext_sets_done _)).1
  · simp only [hidx, Bool.not_false, if_true] at h
    have hen : en = ⟨root, indices, afterPrep [] root initState, [], true⟩ := by
      cases h; rfl
    subst hen
    refine ⟨?_, ?_, ?_⟩
    · simp [getNextN, getNext, hidx]
    · intro hx; rw [hx] at hidx; cases hidx rfl
    · intro k
      rw [getNextN]
      exact (getNextN_done k _ (getNext_sets_done _)).1

/-- Closed-form check of `c4_getNext_spec` on a one-leaf tree with one
matching index. -/
theorem c4_getNext_spec_witness :
    ((getNextN 0 exEnumA).1.isSome = indexable exLeafA) ∧
    (indexable exLeafA = true → (getNextN 0 exEnumA).1 = some (exLeafA, exEnumA.tags)) ∧
    (∀ k : Nat, (getNextN (k + 1) exEnumA).1 = none) :=
  c4_getNext_spec exLeafA exCatalogA exEnumA rfl



/-! ### Locating child entries inside a built block -/

theorem msizeUpTo_get_le : ∀ (cs : List MatchExpression) (k : Nat)
    (c' : MatchExpression), cs.get? k = some c' →
    msizeUpTo cs k + msize c' ≤ msizeList cs := by
  intro cs
  induction cs with
  | nil => intro k c' h; simp at h
  | cons c rest ih =>
    intro k c' h
    cases k with
    | zero =>
      simp only [List.get?_cons_zero, Option.some.injEq] at h
      subst h
      simp [msizeUpTo_zero, msizeList]
    | succ k =>
      simp only [List.get?_cons_succ] at h
      have := ih k c' h
      simp [msizeUpTo_succ, msizeList]
      omega

theorem memoOfList_get (p : NodePath) : ∀ (cs : List MatchExpression) (k : Nat)
    (c' : MatchExpression) (base i r : Nat), cs.get? k = some c' → r < msize c' →
    (memoOfList p base i cs).get? (msizeUpTo cs k + r) =
      (memoOf (p ++ [i + k]) (base + msizeUpTo cs k) c').get? r := by
  intro cs
  induction cs with
  | nil => intro k c' base i r h hr; simp at h
  | cons c rest ih =>
    intro k c' base i r h hr
    cases k with
    | zero =>
      simp only [List.get?_cons_zero, Option.some.injEq] at h
      subst h
      rw [memoOfList, msizeUpTo_zero, Nat.zero_add]
      rw [List.get?_append (by rw [memoOf_length]; omega)]
      rw [Nat.add_zero, Nat.add_zero]
    | succ k =>
      simp only [List.get?_cons_succ] at h
      rw [memoOfList, msizeUpTo_succ]
      have hlen : (memoOf (p ++ [i]) base c).length = msize c := memoOf_length c _ _
      rw [List.get?_append_right (by omega)]
      have harith : msize c + msizeUpTo rest k + r - (memoOf (p ++ [i]) base c).length =
          msizeUpTo rest k + r := by omega
      rw [harith]
      have := ih k c' (base + msize c) (i + 1) r h hr
      rw [this]
      have h2 : i + 1 + k = i + (k + 1) := by omega
      have h3 : base + msize c + msizeUpTo rest k = base + (msize c + msizeUpTo rest k) := by
        omega
      rw [h2, h3]

/-- The own memo entry of child `k`, read back from the full post-build
state of its parent. -/
theorem memoGet_afterPrep_child (p : NodePath) (mt : MatchType) (path : String)
    (rt : Option RelevantTag) (cs : List MatchExpression) (st : PrepState)
    (hok : st.ok) (k : Nat) (c' : MatchExpression)
    (hmt : nodeCanUseIndexOnOwnField mt = false)
    (hget : cs.get? k = some c') :
    (afterPrep p (.node mt path rt cs) st).memo.get?
        (rootIdOf (st.inOrderCount + msizeUpTo cs k) c') =
      some (ownEntry (p ++ [k]) (st.inOrderCount + msizeUpTo cs k) c') := by
  have hpos := msize_pos c'
  have hle := msizeUpTo_get_le cs k c' hget
  have hok' : st.memo.length = st.inOrderCount := hok
  have hundo : memoOf p st.inOrderCount (.node mt path rt cs) =
      memoOfList p st.inOrderCount 0 cs ++
        [ownEntry p st.inOrderCount (.node mt path rt cs)] := by
    rw [memoOf]
    simp [hmt]
  simp only [afterPrep, hundo]
  have hidx : rootIdOf (st.inOrderCount + msizeUpTo cs k) c' =
      st.memo.length + (msizeUpTo cs k + (msize c' - 1)) := by
    simp only [rootIdOf]
    omega
  rw [hidx, List.get?_append_right (by omega)]
  have h2 : st.memo.length + (msizeUpTo cs k + (msize c' - 1)) - st.memo.length =
      msizeUpTo cs k + (msize c' - 1) := by omega
  rw [h2]
  have hlenL : (memoOfList p st.inOrderCount 0 cs).length = msizeList cs :=
    memoOfList_length p cs st.inOrderCount 0
  rw [List.get?_append (by omega)]
  have h3 := memoOfList_get p cs k c' st.inOrderCount 0 (msize c' - 1) hget (by omega)
  rw [Nat.zero_add] at h3
  rw [h3, memoOf_own]


/-! ### Disjunction build (claim C5) -/

theorem allIndexable_iff : ∀ (cs : List MatchExpression),
    allIndexable cs = true ↔ ∀ c ∈ cs, indexable c = true := by
  intro cs
  induction cs with
  | nil => simp [allIndexable]
  | cons c rest ih => simp [allIndexable, ih]

theorem anyIndexable_iff : ∀ (cs : List MatchExpression),
    anyIndexable cs = true ↔ ∃ c ∈ cs, indexable c = true := by
  intro cs
  induction cs with
  | nil => simp [anyIndexable]
  | cons c rest ih => simp [anyIndexable, ih]

/-- C5: for a disjunction, every child is built (each child has its own
memo entry regardless of indexability), the OrAll memo entry lists exactly
one child memo id per child in child order, and the build result is true
iff all children are indexable. -/
theorem c5_or_spec (p : NodePath) (path : String) (rt : Option RelevantTag)
    (cs : List MatchExpression) (st : PrepState) (hok : st.ok) :
    ((prepMemo p (.node .OR path rt cs) st).2 = true ↔
      ∀ c ∈ cs, indexable c = true) ∧
    ((prepMemo p (.node .OR path rt cs) st).1.memo.get?
        (rootIdOf st.inOrderCount (.node .OR path rt cs)) =
      some (.orSolution (childRootIds st.inOrderCount cs))) ∧
    ((childRootIds st.inOrderCount cs).length = cs.length) ∧
    (∀ (k : Nat) (c' : MatchExpression), cs.get? k = some c' →
      (childRootIds st.inOrderCount cs).get? k =
        some (rootIdOf (st.inOrderCount + msizeUpTo cs k) c') ∧
      (prepMemo p (.node .OR path rt cs) st).1.memo.get?
          (rootIdOf (st.inOrderCount + msizeUpTo cs k) c') =
        some (ownEntry (p ++ [k]) (st.inOrderCount + msizeUpTo cs k) c')) := by
  have heq := prepMemo_eq (.node .OR path rt cs) p st hok
  rw [heq]
  refine ⟨?_, ?_, childRootIds_length cs st.inOrderCount, ?_⟩
  · simp only [indexable, arrayUsesIndexOnChildren, nodeCanUseIndexOnOwnField,
      isLogical, Bool.false_eq_true, if_false, if_true]
    exact allIndexable_iff cs
  · have h := memoGet_afterPrep p (.node .OR path rt cs) st hok
    rw [h]
    simp [ownEntry, arrayUsesIndexOnChildren, nodeCanUseIndexOnOwnField]
  · intro k c' hget
    refine ⟨childRootIds_get cs k c' st.inOrderCount hget, ?_⟩
    exact memoGet_afterPrep_child p .OR path rt cs st hok k c' rfl hget

/-- Closed-form check of `c5_or_spec` on `OR(a, b)`. -/
theorem c5_or_spec_witness :
    ((prepMemo [] (.node .OR "" none exOrAB.children) initState).2 = true ↔
      ∀ c ∈ exOrAB.children, indexable c = true) ∧
    ((prepMemo [] (.node .OR "" none exOrAB.children) initState).1.memo.get?
        (rootIdOf initState.inOrderCount (.node .OR "" none exOrAB.children)) =
      some (.orSolution (childRootIds initState.inOrderCount exOrAB.children))) ∧
    ((childRootIds initState.inOrderCount exOrAB.children).length =
      exOrAB.children.length) ∧
    (∀ (k : Nat) (c' : MatchExpression), exOrAB.children.get? k = some c' →
      (childRootIds initState.inOrderCount exOrAB.children).get? k =
        some (rootIdOf (initState.inOrderCount + msizeUpTo exOrAB.children k) c') ∧
      (prepMemo [] (.node .OR "" none exOrAB.children) initState).1.memo.get?
          (rootIdOf (initState.inOrderCount + msizeUpTo exOrAB.children k) c') =
        some (ownEntry ([] ++ [k])
          (initState.inOrderCount + msizeUpTo exOrAB.children k) c')) :=
  c5_or_spec [] "" none exOrAB.children initState rfl

/-! ### Geo-nearest priority in conjunction options (claim C9) -/

theorem geoAux_some_isSome : ∀ (cs : List MatchExpression) (n g : Nat),
    (geoAux n (some g) cs).isSome := by
  intro cs
  induction cs with
  | nil => intro n g; simp [geoAux]
  | cons c rest ih =>
    intro n g
    by_cases hc : indexable c
    · simp only [geoAux, hc, if_true]
      by_cases hg : c.matchType = .GEO_NEAR
      · simp only [hg, if_pos rfl]
        exact ih (n + 1) n
      · rw [if_neg hg]
        exact ih (n + 1) g
    · simp only [geoAux, hc, Bool.false_eq_true, if_false]
      exact ih n g

theorem geoAux_isSome : ∀ (cs : List MatchExpression) (n : Nat) (geo : Option Nat),
    (∃ k c', cs.get? k = some c' ∧ indexable c' = true ∧
      c'.matchType = .GEO_NEAR) →
    (geoAux n geo cs).isSome := by
  intro cs
  induction cs with
  | nil =>
    intro n geo h
    obtain ⟨k, c', hk, _, _⟩ := h
    simp at hk
  | cons c rest ih =>
    intro n geo h
    obtain ⟨k, c', hk, hidx, hgeo⟩ := h
    cases k with
    | zero =>
      simp only [List.get?_cons_zero, Option.some.injEq] at hk
      subst hk
      simp only [geoAux, hidx, if_true, hgeo, if_pos rfl]
      exact geoAux_some_isSome rest (n + 1) n
    | succ k =>
      simp only [List.get?_cons_succ] at hk
      by_cases hc : indexable c
      · simp only [geoAux, hc, if_true]
        by_cases hg : c.matchType = .GEO_NEAR
        · rw [if_pos hg]
          exact geoAux_some_isSome rest (n + 1) n
        · rw [if_neg hg]
          exact ih (n + 1) geo ⟨k, c', hk, hidx, hgeo⟩
      · simp only [geoAux, hc, Bool.false_eq_true, if_false]
        exact ih n geo ⟨k, c', hk, hidx, hgeo⟩

theorem geoAux_spec : ∀ (cs : List MatchExpression) (n : Nat) (geo : Option Nat)
    (g : Nat), geoAux n geo cs = some g →
    geo = some g ∨
    (n ≤ g ∧ ∀ (b : Nat), ∃ k c', cs.get? k = some c' ∧ indexable c' = true ∧
      c'.matchType = .GEO_NEAR ∧
      (collectOpts b cs).get? (g - n) = some [rootIdOf (b + msizeUpTo cs k) c']) := by
  intro cs
  induction cs with
  | nil => intro n geo g h; left; simpa [geoAux] using h
  | cons c rest ih =>
    intro n geo g h
    by_cases hc : indexable c
    · simp only [geoAux, hc, if_true] at h
      by_cases hg : c.matchType = .GEO_NEAR
      · rw [if_pos hg] at h
        rcases ih (n + 1) (some n) g h with heq | ⟨hle, hrest⟩
        · right
          simp only [Option.some.injEq] at heq
          subst heq
          refine ⟨le_rfl, ?_⟩
          intro b
          refine ⟨0, c, by simp, hc, hg, ?_⟩
          simp [collectOpts, hc, msizeUpTo_zero]
        · right
          refine ⟨by omega, ?_⟩
          intro b
          obtain ⟨k, c', hk, hi, hgn, hopt⟩ := hrest (b + msize c)
          refine ⟨k + 1, c', by simpa using hk, hi, hgn, ?_⟩
          have hgsub : g - n = (g - (n + 1)) + 1 := by omega
          rw [hgsub]
          simp only [collectOpts, hc, if_true, List.singleton_append,
            List.get?_cons_succ]
          rw [hopt, msizeUpTo_succ]
          simp only [Option.some.injEq, rootIdOf, List.cons.injEq, and_true]
          omega
      · rw [if_neg hg] at h
        rcases ih (n + 1) geo g h with heq | ⟨hle, hrest⟩
        · left; exact heq
        · right
          refine ⟨by omega, ?_⟩
          intro b
          obtain ⟨k, c', hk, hi, hgn, hopt⟩ := hrest (b + msize c)
          refine ⟨k + 1, c', by simpa using hk, hi, hgn, ?_⟩
          have hgsub : g - n = (g - (n + 1)) + 1 := by omega
          rw [hgsub]
          simp only [collectOpts, hc, if_true, List.singleton_append,
            List.get?_cons_succ]
          rw [hopt, msizeUpTo_succ]
          simp only [Option.some.injEq, rootIdOf, List.cons.injEq, and_true]
          omega
    · simp only [geoAux, hc, Bool.false_eq_true, if_false] at h
      rcases ih n geo g h with heq | ⟨hle, hrest⟩
      · left; exact heq
      · right
        refine ⟨hle, ?_⟩
        intro b
        obtain ⟨k, c', hk, hi, hgn, hopt⟩ := hrest (b + msize c)
        refine ⟨k + 1, c', by simpa using hk, hi, hgn, ?_⟩
        simp only [collectOpts, hc, Bool.false_eq_true, if_false,
          List.nil_append]
        rw [hopt, msizeUpTo_succ]
        simp only [Option.some.injEq, rootIdOf, List.cons.injEq, and_true]
        omega

theorem swapFirst_get0 (l : List (List Nat)) (g : Nat) (hg : g < l.length)
    (hg0 : g ≠ 0) : (swapFirst l g).get? 0 = l.get? g := by
  cases l with
  | nil => simp at hg
  | cons a tl =>
    cases g with
    | zero => exact absurd rfl hg0
    | succ g' =>
      have hlt : g' < tl.length := by simpa using hg
      obtain ⟨v, hv⟩ : ∃ v, tl.get? g' = some v :=
        ⟨tl.get ⟨g', hlt⟩, List.get?_eq_get hlt⟩
      have hv' : tl[g']? = some v := by rw [← List.get?_eq_getElem?]; exact hv
      simp [swapFirst, List.set, hv, hv']

theorem andFinal_get0_geo (cs : List MatchExpression) (base : Nat)
    (hgeo : ∃ k c', cs.get? k = some c' ∧ indexable c' = true ∧
      c'.matchType = .GEO_NEAR) :
    ∃ k c', cs.get? k = some c' ∧ indexable c' = true ∧
      c'.matchType = .GEO_NEAR ∧
      (andFinal base cs).get? 0 =
        some [rootIdOf (base + msizeUpTo cs k) c'] := by
  have hsome := geoAux_isSome cs 0 none hgeo
  obtain ⟨g, hg⟩ := Option.isSome_iff_exists.mp hsome
  rcases geoAux_spec cs 0 none g hg with heq | ⟨_, hrest⟩
  · cases heq
  · obtain ⟨k, c', hk, hi, hgn, hopt⟩ := hrest base
    rw [Nat.sub_zero] at hopt
    refine ⟨k, c', hk, hi, hgn, ?_⟩
    simp only [andFinal, hg]
    by_cases h0 : g ≠ 0
    · obtain ⟨hlen, _⟩ := List.get?_eq_some.mp hopt
      rw [if_pos h0, swapFirst_get0 _ _ hlen h0]
      exact hopt
    · rw [if_neg h0]
      have : g = 0 := by omega
      subst this
      exact hopt

/-- C9: if a conjunction has an indexable geo-nearest child, the built
AndChoice is the collected options with the (last) geo option swapped to
position 0, so option 0 is a single-id option whose memo entry is the
geo-nearest child's Predicate entry. -/
theorem c9_geoNear_first (p : NodePath) (path : String) (rt : Option RelevantTag)
    (cs : List MatchExpression) (st : PrepState) (hok : st.ok)
    (hgeo : ∃ k c', cs.get? k = some c' ∧ indexable c' = true ∧
      c'.matchType = .GEO_NEAR) :
    (prepMemo p (.node .AND path rt cs) st).1.memo.get?
        (rootIdOf st.inOrderCount (.node .AND path rt cs)) =
      some (.andSolution (andFinal st.inOrderCount cs)) ∧
    ∃ (k : Nat) (c' : MatchExpression) (f nf : List Nat),
      cs.get? k = some c' ∧ c'.matchType = .GEO_NEAR ∧ indexable c' = true ∧
      (andFinal st.inOrderCount cs).get? 0 =
        some [rootIdOf (st.inOrderCount + msizeUpTo cs k) c'] ∧
      (prepMemo p (.node .AND path rt cs) st).1.memo.get?
          (rootIdOf (st.inOrderCount + msizeUpTo cs k) c') =
        some (.pred f nf (p ++ [k])) := by
  have heq := prepMemo_eq (.node .AND path rt cs) p st hok
  rw [heq]
  constructor
  · have h := memoGet_afterPrep p (.node .AND path rt cs) st hok
    rw [h]
    simp [ownEntry, arrayUsesIndexOnChildren, nodeCanUseIndexOnOwnField]
  · obtain ⟨k, c', hk, hi, hgn, hopt⟩ := andFinal_get0_geo cs st.inOrderCount hgeo
    have hchild := memoGet_afterPrep_child p .AND path rt cs st hok k c' rfl hk
    cases c' with
    | node mt' path' rt' cs' =>
      have hmt' : mt' = .GEO_NEAR := hgn
      subst hmt'
      cases rt' with
      | none =>
        refine ⟨k, MatchExpression.node .GEO_NEAR path' none cs', [], [],
          hk, rfl, hi, hopt, ?_⟩
        rw [hchild]
        simp [ownEntry, arrayUsesIndexOnChildren, nodeCanUseIndexOnOwnField]
      | some r =>
        refine ⟨k, MatchExpression.node .GEO_NEAR path' (some r) cs',
          r.first, r.notFirst, hk, rfl, hi, hopt, ?_⟩
        rw [hchild]
        simp [ownEntry, arrayUsesIndexOnChildren, nodeCanUseIndexOnOwnField]

/-- Closed-form check of `c9_geoNear_first` on
`AND(a[first={0}], geoNear g[first={1}])`. -/
theorem c9_geoNear_first_witness :
    (prepMemo [] (.node .AND "" none exAndGeo.children) initState).1.memo.get?
        (rootIdOf initState.inOrderCount (.node .AND "" none exAndGeo.children)) =
      some (.andSolution (andFinal initState.inOrderCount exAndGeo.children)) ∧
    ∃ (k : Nat) (c' : MatchExpression) (f nf : List Nat),
      exAndGeo.children.get? k = some c' ∧ c'.matchType = .GEO_NEAR ∧
      indexable c' = true ∧
      (andFinal initState.inOrderCount exAndGeo.children).get? 0 =
        some [rootIdOf (initState.inOrderCount + msizeUpTo exAndGeo.children k) c'] ∧
      (prepMemo [] (.node .AND "" none exAndGeo.children) initState).1.memo.get?
          (rootIdOf (initState.inOrderCount + msizeUpTo exAndGeo.children k) c') =
        some (.pred f nf ([] ++ [k])) :=
  c9_geoNear_first [] "" none exAndGeo.children initState rfl
    ⟨1, .node .GEO_NEAR "g" (some ⟨[1], []⟩) [], by rfl, by rfl, by rfl⟩

/-! ### The tagger (claim C6) -/

theorem taggerStep_refl (ctx : MemoCtx) (tags : Tags) : TaggerStep ctx tags tags :=
  ⟨fun _ _ h => h, fun _ _ h => Or.inl h⟩

theorem taggerStep_trans {ctx : MemoCtx} {t1 t2 t3 : Tags}
    (h12 : TaggerStep ctx t1 t2) (h23 : TaggerStep ctx t2 t3) :
    TaggerStep ctx t1 t3 := by
  obtain ⟨m12, n12⟩ := h12
  obtain ⟨m23, n23⟩ := h23
  refine ⟨fun q t h => m23 q t (m12 q t h), fun q t h => ?_⟩
  rcases n23 q t h with h2 | ⟨hnone2, hpos, hex⟩
  · exact n12 q t h2
  · right
    refine ⟨?_, hpos, hex⟩
    cases h1 : getTag t1 q with
    | none => rfl
    | some u => rw [m12 q u h1] at hnone2; cases hnone2

theorem tagSeq_step (ctx : MemoCtx) (f : Nat → Tags → Option Tags)
    (hf : ∀ id tags tags', f id tags = some tags' → TaggerStep ctx tags tags') :
    ∀ (ids : List Nat) (tags tags' : Tags),
      tagSeq f ids tags = some tags' → TaggerStep ctx tags tags' := by
  intro ids
  induction ids with
  | nil =>
    intro tags tags' h
    simp only [tagSeq, Option.some.injEq] at h
    subst h
    exact taggerStep_refl ctx tags
  | cons id rest ih =>
    intro tags tags' h
    rw [tagSeq] at h
    cases hstep : f id tags with
    | none => rw [hstep] at h; cases h
    | some t1 =>
      rw [hstep] at h
      exact taggerStep_trans (hf id tags t1 hstep) (ih t1 tags' h)

theorem tagMemo_step (ctx : MemoCtx) : ∀ (fuel id : Nat) (tags tags' : Tags),
    tagMemo ctx fuel id tags = some tags' → TaggerStep ctx tags tags' := by
  intro fuel
  induction fuel with
  | zero => intro id tags tags' h; simp [tagMemo] at h
  | succ fuel ih =>
    intro id tags tags' h
    rw [tagMemo] at h
    cases hm : ctx.memo.get? id with
    | none => rw [hm] at h; cases h
    | some entry =>
      rw [hm] at h
      cases entry with
      | pred first nf expr =>
        by_cases htag : (getTag tags expr).isSome
        · simp only [htag, if_true] at h
          cases h
        · simp only [htag, Bool.false_eq_true, if_false] at h
          by_cases hemp : first.isEmpty
          · simp only [hemp, if_true, Option.some.injEq] at h
            subst h
            exact taggerStep_refl ctx tags
          · simp only [hemp, Bool.false_eq_true, if_false] at h
            cases hidx : first.get? (curEnumD ctx.curEnum id) with
            | none => rw [hidx] at h; cases h
            | some idx =>
              rw [hidx] at h
              simp only [Option.some.injEq] at h
              subst h
              have hnone : getTag tags expr = none :=
                Option.not_isSome_iff_eq_none.mp htag
              constructor
              · intro q t hq
                by_cases hqe : expr = q
                · subst hqe; rw [hq] at hnone; cases hnone
                · simp only [getTag, setTag]
                  rw [alookup_cons_ne _ _ hqe]
                  exact hq
              · intro q t hq
                by_cases hqe : expr = q
                · subst hqe
                  simp only [getTag, setTag, alookup_cons_self,
                    Option.some.injEq] at hq
                  subst hq
                  right
                  exact ⟨hnone, rfl, id, first, nf, hm, hidx,
                    List.get?_mem hidx⟩
                · left
                  simp only [getTag, setTag] at hq
                  rw [alookup_cons_ne _ _ hqe] at hq
                  exact hq
      | orSolution subs =>
        exact tagSeq_step ctx _ (fun id' => ih id') subs tags tags' h
      | andSolution subs =>
        have h' : (match subs.get? (curEnumD ctx.curEnum id) with
            | none => none
            | some cur => tagSeq (tagMemo ctx fuel) cur tags) = some tags' := h
        cases hsub : subs.get? (curEnumD ctx.curEnum id) with
        | none => rw [hsub] at h'; cases h'
        | some cur =>
          rw [hsub] at h'
          exact tagSeq_step ctx _ (fun id' => ih id') cur tags tags' h'

/-- C6: (a) at a Predicate entry the tagger leaves an empty-`first` leaf
untagged and otherwise installs exactly `IndexTag{first[cursor[id]], 0}`;
(b) hence every tag installed anywhere by the tagger has position 0 and an
index drawn (at the cursor position) from that leaf's `first` list. -/
theorem c6_tagger_spec :
    (∀ (ctx : MemoCtx) (fuel id : Nat) (tags : Tags) (first nf : List Nat)
       (expr : NodePath), ctx.memo.get? id = some (.pred first nf expr) →
       getTag tags expr = none →
       ((first = [] → tagMemo ctx (fuel + 1) id tags = some tags) ∧
        (∀ idx, first.get? (curEnumD ctx.curEnum id) = some idx →
          tagMemo ctx (fuel + 1) id tags =
            some (setTag tags expr ⟨idx, 0⟩)))) ∧
    (∀ (ctx : MemoCtx) (fuel id : Nat) (tags tags' : Tags),
       tagMemo ctx fuel id tags = some tags' →
       ∀ q t, getTag tags' q = some t →
         getTag tags q = some t ∨
         (getTag tags q = none ∧ t.pos = 0 ∧
           ∃ id' first nf, ctx.memo.get? id' = some (.pred first nf q) ∧
             first.get? (curEnumD ctx.curEnum id') = some t.index ∧
             t.index ∈ first)) := by
  constructor
  · intro ctx fuel id tags first nf expr hm htag
    have hts : (getTag tags expr).isSome = false := by rw [htag]; rfl
    constructor
    · intro hfe
      rw [tagMemo, hm]
      simp [hts, hfe]
    · intro idx hidx
      rw [tagMemo, hm]
      have hne : first.isEmpty = false := by
        cases hf : first with
        | nil => rw [hf] at hidx; simp at hidx
        | cons a tl => rfl
      simp only [hts, Bool.false_eq_true, if_false, hne, hidx]
  · intro ctx fuel id tags tags' h
    exact (tagMemo_step ctx fuel id tags tags' h).2

/-- Closed-form check of `c6_tagger_spec` on a one-entry memo. -/
theorem c6_tagger_spec_witness :
    (tagMemo ⟨[.pred [5] [7] []], []⟩ 1 0 [] = some (setTag [] [] ⟨5, 0⟩)) ∧
    ((⟨5, 0⟩ : IndexTag).pos = 0 ∧ ∃ id' first nf,
      (⟨[.pred [5] [7] []], []⟩ : MemoCtx).memo.get? id' =
        some (.pred first nf []) ∧
      first.get? (curEnumD (⟨[.pred [5] [7] []], []⟩ : MemoCtx).curEnum id') =
        some (⟨5, 0⟩ : IndexTag).index ∧
      (⟨5, 0⟩ : IndexTag).index ∈ first) := by
  have h1 := (c6_tagger_spec.1 ⟨[.pred [5] [7] []], []⟩ 0 0 [] [5] [7] [] rfl
    rfl).2 5 rfl
  refine ⟨h1, ?_⟩
  have h2 := c6_tagger_spec.2 ⟨[.pred [5] [7] []], []⟩ 1 0 [] _ h1 []
    ⟨5, 0⟩ (by decide)
  rcases h2 with h | ⟨_, hpos, hex⟩
  · exact absurd h (by decide)
  · exact ⟨hpos, hex⟩

/-! ### The multikey compounding bug (claim C1) -/

/-- C1: the multikey check at the compounding step indexes the catalog with
the `assignedCompound` loop counter rather than the tagged index number.
With catalog [idx0 multikey, idx1 clean] the code refuses to compound
(child b is left untagged) even though the tagged index 1 is not multikey;
with the mirror catalog [idx0 clean, idx1 multikey] it compounds on the
multikey index 1.  Both end-to-end runs are evaluated here. -/
theorem c1_multikey_bug_eval :
    ((initEnum exAndAB exCatalogBug).map
        (fun en => (getTag en.tags [0], getTag en.tags [1]))) =
      some (some ⟨1, 0⟩, none) ∧
    ((initEnum exAndAB exCatalogBug2).map
        (fun en => (getTag en.tags [0], getTag en.tags [1]))) =
      some (some ⟨1, 0⟩, some ⟨1, 1⟩) := by
  constructor <;> rfl


/-! ### Memo-id bookkeeping of the build (claim C3) -/

theorem subtreePaths_head (e : MatchExpression) (p : NodePath) :
    ∃ tl, subtreePaths p e = p :: tl := by
  cases e with
  | node mt path rt cs => exact ⟨_, by rw [subtreePaths]⟩

theorem subtreePaths_self (e : MatchExpression) (p : NodePath) :
    p ∈ subtreePaths p e := by
  obtain ⟨tl, h⟩ := subtreePaths_head e p
  rw [h]
  simp

theorem subtreePathsList_shape_of (p : NodePath) (cs : List MatchExpression)
    (H : ∀ c ∈ cs, ∀ (q : NodePath), ∀ x ∈ subtreePaths q c, ∃ s, x = q ++ s) :
    ∀ (i : Nat), ∀ x ∈ subtreePathsList p i cs,
      ∃ j s, i ≤ j ∧ j < i + cs.length ∧ x = p ++ [j] ++ s := by
  induction cs with
  | nil => intro i x hx; simp [subtreePathsList] at hx
  | cons c rest ih =>
    intro i x hx
    rw [subtreePathsList] at hx
    rcases List.mem_append.mp hx with hin | hin
    · obtain ⟨s, hs⟩ := H c (by simp) (p ++ [i]) x hin
      exact ⟨i, s, le_rfl, by simp, by simp [hs]⟩
    · obtain ⟨j, s, hj1, hj2, hs⟩ := ih (fun d hd => H d (by simp [hd])) (i + 1) x hin
      exact ⟨j, s, by omega, by simp at hj2 ⊢; omega, hs⟩

theorem subtreePaths_shape : ∀ (e : MatchExpression) (p : NodePath),
    ∀ x ∈ subtreePaths p e, ∃ s, x = p ++ s := by
  have main := MatchExpression.inductOn
    (motive := fun e => ∀ (p : NodePath), ∀ x ∈ subtreePaths p e, ∃ s, x = p ++ s)
  intro e
  apply main
  intro mt path rt cs ih p x hx
  rw [subtreePaths] at hx
  rcases List.mem_cons.mp hx with heq | hin
  · exact ⟨[], by simp [heq]⟩
  · obtain ⟨j, s, _, _, hs⟩ :=
      subtreePathsList_shape_of p cs (fun c hc q => ih c hc q) 0 x hin
    exact ⟨[j] ++ s, by simp [hs]⟩

theorem subtreePathsList_shape (p : NodePath) (cs : List MatchExpression)
    (i : Nat) : ∀ x ∈ subtreePathsList p i cs,
      ∃ j s, i ≤ j ∧ j < i + cs.length ∧ x = p ++ [j] ++ s :=
  subtreePathsList_shape_of p cs (fun c _ q => subtreePaths_shape c q) i

theorem subtreePathsList_nodup_of (p : NodePath) (cs : List MatchExpression)
    (H : ∀ c ∈ cs, ∀ (q : NodePath), (subtreePaths q c).Nodup) :
    ∀ (i : Nat), (subtreePathsList p i cs).Nodup := by
  induction cs with
  | nil => intro i; simp [subtreePathsList]
  | cons c rest ih =>
    intro i
    rw [subtreePathsList]
    rw [List.nodup_append]
    refine ⟨H c (by simp) (p ++ [i]), ih (fun d hd => H d (by simp [hd])) (i + 1), ?_⟩
    intro x hx hy
    obtain ⟨s, hs⟩ := subtreePaths_shape c (p ++ [i]) x hx
    obtain ⟨j, s2, hj1, _, hs2⟩ := subtreePathsList_shape p rest (i + 1) x hy
    have : p ++ ([i] ++ s) = p ++ ([j] ++ s2) := by
      rw [← List.append_assoc, ← List.append_assoc, ← hs, ← hs2]
    have h2 := List.append_cancel_left this
    simp at h2
    omega

theorem subtreePaths_nodup : ∀ (e : MatchExpression) (p : NodePath),
    (subtreePaths p e).Nodup := by
  have main := MatchExpression.inductOn
    (motive := fun e => ∀ (p : NodePath), (subtreePaths p e).Nodup)
  intro e
  apply main
  intro mt path rt cs ih p
  rw [subtreePaths]
  rw [List.nodup_cons]
  refine ⟨?_, subtreePathsList_nodup_of p cs (fun c hc q => ih c hc q) 0⟩
  intro hmem
  obtain ⟨j, s, _, _, hs⟩ := subtreePathsList_shape p cs 0 p hmem
  have := congrArg List.length hs
  simp at this

theorem pairsOf_fst_perm : ∀ (e : MatchExpression), wf e = true →
    ∀ (p : NodePath) (base : Nat),
      ((pairsOf p base e).map Prod.fst).Perm (subtreePaths p e) := by
  have main := MatchExpression.inductOn
    (motive := fun e => wf e = true → ∀ (p : NodePath) (base : Nat),
      ((pairsOf p base e).map Prod.fst).Perm (subtreePaths p e))
  intro e
  apply main
  intro mt path rt cs ih hwf p base
  rw [wf] at hwf
  simp only [Bool.and_eq_true] at hwf
  obtain ⟨hleaf, hlist⟩ := hwf
  have hlist' : ∀ c ∈ cs, wf c = true := by
    intro c hc
    clear hleaf ih
    induction cs with
    | nil => simp at hc
    | cons d rest ihc =>
      rw [wfList, Bool.and_eq_true] at hlist
      rcases List.mem_cons.mp hc with heq | hin
      · subst heq; exact hlist.1
      · exact ihc hlist.2 hin
  by_cases h : nodeCanUseIndexOnOwnField mt
  · have hcs : cs = [] := by
      rcases Bool.or_eq_true_iff.mp hleaf with h1 | h1
      · rw [h] at h1; cases h1
      · exact List.isEmpty_iff.mp h1
    subst hcs
    simp [pairsOf, h, subtreePaths, subtreePathsList]
  · rw [pairsOf]
    simp only [h, Bool.false_eq_true, if_false]
    rw [subtreePaths, List.map_cons]
    refine List.Perm.cons p ?_
    have haux : ∀ (cs' : List MatchExpression), (∀ c ∈ cs', wf c = true) →
        (∀ c ∈ cs', wf c = true → ∀ (q : NodePath) (b : Nat),
          ((pairsOf q b c).map Prod.fst).Perm (subtreePaths q c)) →
        ∀ (i b : Nat),
        ((pairsOfListRev p b i cs').map Prod.fst).Perm (subtreePathsList p i cs') := by
      intro cs'
      induction cs' with
      | nil => intro _ _ i b; simp [pairsOfListRev, subtreePathsList]
      | cons c rest ihc =>
        intro hwfs ihs i b
        rw [pairsOfListRev, subtreePathsList, List.map_append]
        have h1 := ihc (fun d hd => hwfs d (by simp [hd]))
          (fun d hd => ihs d (by simp [hd])) (i + 1) (b + msize c)
        have h2 := ihs c (by simp) (hwfs c (by simp)) (p ++ [i]) b
        exact (h1.append h2).trans List.perm_append_comm
    exact haux cs hlist' (fun c hc hw => ih c hc hw) 0 base

theorem pairsOf_snd_perm : ∀ (e : MatchExpression) (p : NodePath) (base : Nat),
    ((pairsOf p base e).map Prod.snd).Perm (List.range' base (msize e)) := by
  have main := MatchExpression.inductOn
    (motive := fun e => ∀ (p : NodePath) (base : Nat),
      ((pairsOf p base e).map Prod.snd).Perm (List.range' base (msize e)))
  intro e
  apply main
  intro mt path rt cs ih p base
  by_cases h : nodeCanUseIndexOnOwnField mt
  · simp [pairsOf, h, msize]
  · rw [pairsOf]
    simp only [h, Bool.false_eq_true, if_false]
    rw [List.map_cons]
    have hmsz : msize (MatchExpression.node mt path rt cs) = msizeList cs + 1 := by
      simp [msize, h]
      omega
    rw [hmsz, List.range'_concat]
    simp only [one_mul]
    have hroot : rootIdOf base (MatchExpression.node mt path rt cs) =
        base + msizeList cs := by
      simp [rootIdOf, msize, h]
      omega
    have haux : ∀ (cs' : List MatchExpression),
        (∀ c ∈ cs', ∀ (q : NodePath) (b : Nat),
          ((pairsOf q b c).map Prod.snd).Perm (List.range' b (msize c))) →
        ∀ (i b : Nat),
        ((pairsOfListRev p b i cs').map Prod.snd).Perm
          (List.range' b (msizeList cs')) := by
      intro cs'
      induction cs' with
      | nil => intro _ i b; simp [pairsOfListRev, msizeList]
      | cons c rest ihc =>
        intro ihs i b
        rw [pairsOfListRev, List.map_append, msizeList]
        have h1 := ihc (fun d hd => ihs d (by simp [hd])) (i + 1) (b + msize c)
        have h2 := ihs c (by simp) (p ++ [i]) b
        have hr : List.range' b (msize c) ++ List.range' (b + msize c) (msizeList rest) =
            List.range' b (msize c + msizeList rest) := by
          have h3 := List.range'_append b (msize c) (msizeList rest) 1
          simp only [one_mul] at h3
          rw [Nat.add_comm (msizeList rest) (msize c)] at h3
          exact h3
        have hlast : (List.range' b (msize c) ++
            List.range' (b + msize c) (msizeList rest)).Perm
            (List.range' b (msize c + msizeList rest)) := by rw [hr]
        exact (h1.append h2).trans (List.perm_append_comm.trans hlast)
    have hperm := haux cs (fun c hc => ih c hc) 0 base
    rw [hroot]
    exact (hperm.cons (base + msizeList cs)).trans
      (List.perm_append_singleton _ _).symm



theorem pairsOf_val_bounds (e : MatchExpression) (p : NodePath) (base : Nat) :
    ∀ kv ∈ pairsOf p base e, base ≤ kv.2 ∧ kv.2 < base + msize e := by
  intro kv hkv
  have hmem : kv.2 ∈ (pairsOf p base e).map Prod.snd := List.mem_map_of_mem _ hkv
  have := (pairsOf_snd_perm e p base).mem_iff.mp hmem
  rw [List.mem_range'] at this
  obtain ⟨i, hi, hval⟩ := this
  omega

theorem alookup_pairsRev_resolve (p : NodePath) :
    ∀ (cs : List MatchExpression) (i base : Nat) (x : NodePath) (m : Nat),
      alookup (pairsOfListRev p base i cs) x = some m →
      ∃ k ck, cs.get? k = some ck ∧
        alookup (pairsOf (p ++ [i + k]) (base + msizeUpTo cs k) ck) x = some m := by
  intro cs
  induction cs with
  | nil => intro i base x m h; simp [pairsOfListRev, alookup] at h
  | cons c rest ih =>
    intro i base x m h
    rw [pairsOfListRev, alookup_append] at h
    cases h1 : alookup (pairsOfListRev p (base + msize c) (i + 1) rest) x with
    | some v =>
      rw [h1] at h
      simp only [Option.some.injEq] at h
      subst h
      obtain ⟨k, ck, hk, hlk⟩ := ih (i + 1) (base + msize c) x v h1
      refine ⟨k + 1, ck, by simpa using hk, ?_⟩
      rw [msizeUpTo_succ]
      have h2 : i + 1 + k = i + (k + 1) := by omega
      have h3 : base + msize c + msizeUpTo rest k =
          base + (msize c + msizeUpTo rest k) := by omega
      rw [h2, h3] at hlk
      exact hlk
    | none =>
      rw [h1] at h
      refine ⟨0, c, by simp, ?_⟩
      rw [msizeUpTo_zero, Nat.add_zero, Nat.add_zero]
      exact h

theorem pairsOf_child_lt : ∀ (e : MatchExpression) (p : NodePath) (base : Nat)
    (q : NodePath) (j m m' : Nat),
    alookup (pairsOf p base e) q = some m →
    alookup (pairsOf p base e) (q ++ [j]) = some m' → m' < m := by
  have main := MatchExpression.inductOn
    (motive := fun e => ∀ (p : NodePath) (base : Nat) (q : NodePath)
      (j m m' : Nat), alookup (pairsOf p base e) q = some m →
      alookup (pairsOf p base e) (q ++ [j]) = some m' → m' < m)
  intro e
  apply main
  intro mt path rt cs ih p base q j m m' hq hqj
  by_cases h : nodeCanUseIndexOnOwnField mt
  · rw [pairsOf] at hq hqj
    simp only [h, if_true] at hq hqj
    have h1 : p = q := by
      by_contra hne
      rw [alookup_cons_ne _ _ hne] at hq
      simp [alookup] at hq
    subst h1
    have h2 : p ≠ p ++ [j] := by
      intro hcontra
      have := congrArg List.length hcontra
      simp at this
    rw [alookup_cons_ne _ _ h2] at hqj
    simp [alookup] at hqj
  · have hundo : pairsOf p base (MatchExpression.node mt path rt cs) =
        (p, rootIdOf base (MatchExpression.node mt path rt cs)) ::
          pairsOfListRev p base 0 cs := by
      rw [pairsOf]
      simp [h]
    rw [hundo] at hq hqj
    have hroot : rootIdOf base (MatchExpression.node mt path rt cs) =
        base + msizeList cs := by
      simp [rootIdOf, msize, h]
      omega
    by_cases hqp : p = q
    · subst hqp
      rw [alookup_cons_self] at hq
      simp only [Option.some.injEq] at hq
      subst hq
      have h2 : p ≠ p ++ [j] := by
        intro hcontra
        have := congrArg List.length hcontra
        simp at this
      rw [alookup_cons_ne _ _ h2] at hqj
      obtain ⟨k, ck, hk, hlk⟩ := alookup_pairsRev_resolve p cs 0 base (p ++ [j]) m' hqj
      have hmem := alookup_isSome_mem hlk
      have hb := pairsOf_val_bounds ck (p ++ [0 + k]) (base + msizeUpTo cs k)
        (p ++ [j], m') hmem
      have hle := msizeUpTo_get_le cs k ck hk
      rw [hroot]
      simp at hb
      omega
    · rw [alookup_cons_ne _ _ hqp] at hq
      obtain ⟨k, ck, hk, hlk⟩ := alookup_pairsRev_resolve p cs 0 base q m hq
      have hkeyq := pairsOf_keyShape ck (p ++ [0 + k]) (base + msizeUpTo cs k) _
        (alookup_isSome_mem hlk)
      obtain ⟨s, hs⟩ := hkeyq
      simp only [Nat.zero_add] at hlk hs
      have hqpj : p ≠ q ++ [j] := by
        intro hcontra
        have hlen := congrArg List.length hcontra
        have := congrArg List.length hs
        simp at hlen this
        omega
      rw [alookup_cons_ne _ _ hqpj] at hqj
      obtain ⟨k2, ck2, hk2, hlk2⟩ := alookup_pairsRev_resolve p cs 0 base (q ++ [j]) m' hqj
      have hkeyqj := pairsOf_keyShape ck2 (p ++ [0 + k2]) (base + msizeUpTo cs k2) _
        (alookup_isSome_mem hlk2)
      obtain ⟨s2, hs2⟩ := hkeyqj
      simp only [Nat.zero_add] at hlk2 hs2
      have hkk : k2 = k ∧ s2 = s ++ [j] := by
        have hx : p ++ ([k2] ++ s2) = p ++ ([k] ++ (s ++ [j])) := by
          rw [← List.append_assoc, ← hs2, hs]
          simp
        have := List.append_cancel_left hx
        simp at this
        exact ⟨this.1, this.2⟩
      obtain ⟨hkk1, hkk2⟩ := hkk
      subst hkk1
      rw [hs] at hlk hlk2
      have hcc : ck2 = ck := by
        rw [hk2] at hk
        exact Option.some.inj hk
      subst hcc
      exact ih ck2 (List.get?_mem hk2) (p ++ [k2]) (base + msizeUpTo cs k2)
        ((p ++ [k2]) ++ s) j m m' hlk hlk2

theorem memoOfList_get_inv (p : NodePath) :
    ∀ (cs : List MatchExpression) (base i r : Nat) (entry : NodeSolution),
      (memoOfList p base i cs).get? r = some entry →
      ∃ k ck r', cs.get? k = some ck ∧ r = msizeUpTo cs k + r' ∧
        r' < msize ck ∧
        (memoOf (p ++ [i + k]) (base + msizeUpTo cs k) ck).get? r' = some entry := by
  intro cs
  induction cs with
  | nil => intro base i r entry h; simp [memoOfList] at h
  | cons c rest ih =>
    intro base i r entry h
    rw [memoOfList] at h
    have hlen : (memoOf (p ++ [i]) base c).length = msize c := memoOf_length c _ _
    by_cases hr : r < msize c
    · rw [List.get?_append (by omega)] at h
      refine ⟨0, c, r, by simp, by rw [msizeUpTo_zero]; omega, hr, ?_⟩
      rw [msizeUpTo_zero, Nat.add_zero, Nat.add_zero]
      exact h
    · rw [List.get?_append_right (by omega)] at h
      rw [hlen] at h
      obtain ⟨k, ck, r', hk, hr', hlt, hget⟩ := ih (base + msize c) (i + 1) (r - msize c) entry h
      refine ⟨k + 1, ck, r', by simpa using hk, ?_, hlt, ?_⟩
      · rw [msizeUpTo_succ]; omega
      · rw [msizeUpTo_succ]
        have h2 : i + 1 + k = i + (k + 1) := by omega
        have h3 : base + msize c + msizeUpTo rest k =
            base + (msize c + msizeUpTo rest k) := by omega
        rw [h2, h3] at hget
        exact hget

theorem collectOpts_flatten_bounds : ∀ (cs : List MatchExpression) (base : Nat),
    ∀ y ∈ (collectOpts base cs).flatten, base ≤ y ∧ y < base + msizeList cs := by
  intro cs
  induction cs with
  | nil => intro base y hy; simp [collectOpts] at hy
  | cons c rest ih =>
    intro base y hy
    rw [collectOpts, List.flatten_append] at hy
    have hpos := msize_pos c
    rcases List.mem_append.mp hy with hin | hin
    · by_cases hc : indexable c
      · simp only [hc, if_true] at hin
        simp only [List.flatten, List.append_nil] at hin
        have : y = rootIdOf base c := by simpa using hin
        subst this
        simp only [rootIdOf, msizeList]
        have := msize_mem_le c (c :: rest) (by simp)
        rw [msizeList] at this
        omega
      · simp [hc] at hin
    · have := ih (base + msize c) y hin
      rw [msizeList]
      omega

theorem childRootIds_flatten_bounds : ∀ (cs : List MatchExpression) (base : Nat),
    ∀ y ∈ childRootIds base cs, base ≤ y ∧ y < base + msizeList cs := by
  intro cs
  induction cs with
  | nil => intro base y hy; simp [childRootIds] at hy
  | cons c rest ih =>
    intro base y hy
    rw [childRootIds] at hy
    have hpos := msize_pos c
    rcases List.mem_cons.mp hy with heq | hin
    · subst heq
      simp only [rootIdOf, msizeList]
      omega
    · have := ih (base + msize c) y hin
      rw [msizeList]
      omega

theorem swapFirst_flatten_sub (l : List (List Nat)) (g : Nat) :
    ∀ y ∈ (swapFirst l g).flatten, y ∈ l.flatten := by
  intro y hy
  rw [List.mem_flatten] at hy
  obtain ⟨opt, hopt, hyo⟩ := hy
  rw [swapFirst] at hopt
  rcases List.mem_or_eq_of_mem_set hopt with hopt1 | hopt1
  · rcases List.mem_or_eq_of_mem_set hopt1 with hopt2 | hopt2
    · exact List.mem_flatten.mpr ⟨opt, hopt2, hyo⟩
    · subst hopt2
      cases hg : l.get? g with
      | none => rw [hg] at hyo; simp at hyo
      | some v =>
        rw [hg] at hyo
        simp only [Option.getD_some] at hyo
        exact List.mem_flatten.mpr ⟨v, List.get?_mem hg, hyo⟩
  · subst hopt1
    cases hg : l.get? 0 with
    | none => rw [hg] at hyo; simp at hyo
    | some v =>
      rw [hg] at hyo
      simp only [Option.getD_some] at hyo
      exact List.mem_flatten.mpr ⟨v, List.get?_mem hg, hyo⟩

theorem andFinal_flatten_bounds (cs : List MatchExpression) (base : Nat) :
    ∀ y ∈ (andFinal base cs).flatten, base ≤ y ∧ y < base + msizeList cs := by
  intro y hy
  have hsub : y ∈ (collectOpts base cs).flatten := by
    rw [andFinal] at hy
    cases hg : geoAux 0 none cs with
    | none => simpa [hg] using hy
    | some g =>
      simp only [hg] at hy
      by_cases h0 : g ≠ 0
      · rw [if_pos h0] at hy
        exact swapFirst_flatten_sub _ g y hy
      · rw [if_neg h0] at hy
        exact hy
  exact collectOpts_flatten_bounds cs base y hsub

theorem ownEntry_refs_bounds (mt : MatchType) (path : String)
    (rt : Option RelevantTag) (cs : List MatchExpression) (p : NodePath)
    (base : Nat) :
    ∀ x ∈ entryRefs (ownEntry p base (.node mt path rt cs)),
      base ≤ x ∧ x < base + msizeList cs := by
  intro x hx
  cases mt <;>
    simp only [ownEntry, arrayUsesIndexOnChildren, nodeCanUseIndexOnOwnField,
      if_true, if_false, Bool.true_eq_false, Bool.false_eq_true,
      reduceCtorEq, reduceIte, entryRefs] at hx
  · exact andFinal_flatten_bounds cs base x hx
  · exact childRootIds_flatten_bounds cs base x hx
  · exact collectOpts_flatten_bounds cs base x hx
  · simp at hx
  · simp at hx

theorem memoOf_refs : ∀ (e : MatchExpression) (p : NodePath) (base r : Nat)
    (entry : NodeSolution), (memoOf p base e).get? r = some entry →
    ∀ x ∈ entryRefs entry, base ≤ x ∧ x < base + r := by
  have main := MatchExpression.inductOn
    (motive := fun e => ∀ (p : NodePath) (base r : Nat) (entry : NodeSolution),
      (memoOf p base e).get? r = some entry →
      ∀ x ∈ entryRefs entry, base ≤ x ∧ x < base + r)
  intro e
  apply main
  intro mt path rt cs ih p base r entry hget x hx
  by_cases h : nodeCanUseIndexOnOwnField mt
  · rw [memoOf] at hget
    simp only [h, if_true] at hget
    cases r with
    | zero =>
      simp only [List.get?_cons_zero, Option.some.injEq] at hget
      subst hget
      cases mt <;> simp [ownEntry, nodeCanUseIndexOnOwnField,
        arrayUsesIndexOnChildren, entryRefs] at hx h ⊢
    | succ r => simp at hget
  · have hundo : memoOf p base (MatchExpression.node mt path rt cs) =
        memoOfList p base 0 cs ++
          [ownEntry p base (MatchExpression.node mt path rt cs)] := by
      rw [memoOf]
      simp [h]
    rw [hundo] at hget
    have hlenL : (memoOfList p base 0 cs).length = msizeList cs :=
      memoOfList_length p cs base 0
    by_cases hr : r < msizeList cs
    · rw [List.get?_append (by omega)] at hget
      obtain ⟨k, ck, r', hk, hreq, hlt, hget'⟩ :=
        memoOfList_get_inv p cs base 0 r entry hget
      have := ih ck (List.get?_mem hk) (p ++ [0 + k]) (base + msizeUpTo cs k)
        r' entry hget' x hx
      omega
    · rw [List.get?_append_right (by omega)] at hget
      rw [hlenL] at hget
      have hreq : r - msizeList cs = 0 := by
        by_contra hne
        have : 1 ≤ r - msizeList cs := by omega
        rw [List.get?_eq_none.mpr (by simp; omega)] at hget
        cases hget
      rw [hreq] at hget
      simp only [List.get?_cons_zero, Option.some.injEq] at hget
      subst hget
      have := ownEntry_refs_bounds mt path rt cs p base x hx
      omega

/-- C3: after the build from a fresh state, the node-to-id map covers
exactly the nodes of the tree (each exactly once), the assigned ids are
exactly `[0, N)` for `N = _inOrderCount`, ids are assigned in post-order
(every child's id is smaller than its parent's), and every cross-memo
reference points to a strictly smaller id. -/
theorem c3_memo_ids (root : MatchExpression) (hwf : wf root = true) :
    (((prepMemo [] root initState).1.nodeToId.map Prod.fst).Perm
      (subtreePaths [] root)) ∧
    ((subtreePaths [] root).Nodup) ∧
    (((prepMemo [] root initState).1.nodeToId.map Prod.snd).Perm
      (List.range (prepMemo [] root initState).1.inOrderCount)) ∧
    (∀ (q : NodePath) (j m m' : Nat),
      alookup (prepMemo [] root initState).1.nodeToId q = some m →
      alookup (prepMemo [] root initState).1.nodeToId (q ++ [j]) = some m' →
      m' < m) ∧
    (∀ (id : Nat) (entry : NodeSolution),
      (prepMemo [] root initState).1.memo.get? id = some entry →
      ∀ r ∈ entryRefs entry, r < id) := by
  have heq := prepMemo_eq root [] initState rfl
  rw [heq]
  simp only [afterPrep, initState, List.append_nil, List.nil_append, Nat.zero_add]
  refine ⟨pairsOf_fst_perm root hwf [] 0, subtreePaths_nodup root [], ?_, ?_, ?_⟩
  · rw [List.range_eq_range']
    exact pairsOf_snd_perm root [] 0
  · intro q j m m' h1 h2
    exact pairsOf_child_lt root [] 0 q j m m' h1 h2
  · intro id entry h r hr
    have := memoOf_refs root [] 0 id entry h r hr
    omega

/-- Closed-form check of `c3_memo_ids` on `AND(a, b)`. -/
theorem c3_memo_ids_witness :
    (((prepMemo [] exAndAB initState).1.nodeToId.map Prod.fst).Perm
      (subtreePaths [] exAndAB)) ∧
    ((subtreePaths [] exAndAB).Nodup) ∧
    (((prepMemo [] exAndAB initState).1.nodeToId.map Prod.snd).Perm
      (List.range (prepMemo [] exAndAB initState).1.inOrderCount)) ∧
    (∀ (q : NodePath) (j m m' : Nat),
      alookup (prepMemo [] exAndAB initState).1.nodeToId q = some m →
      alookup (prepMemo [] exAndAB initState).1.nodeToId (q ++ [j]) = some m' →
      m' < m) ∧
    (∀ (id : Nat) (entry : NodeSolution),
      (prepMemo [] exAndAB initState).1.memo.get? id = some entry →
      ∀ r ∈ entryRefs entry, r < id) :=
  c3_memo_ids exAndAB (by rfl)



/-! ### The tagger never trips its assertions on a built memo (claim C10) -/

theorem curOfListRev_vals_zero_of (p : NodePath) (cs : List MatchExpression)
    (H : ∀ c ∈ cs, ∀ (q : NodePath) (b : Nat), ∀ x ∈ curOf q b c, x.2 = 0) :
    ∀ (base i : Nat), ∀ x ∈ curOfListRev p base i cs, x.2 = 0 := by
  induction cs with
  | nil => intro base i x hx; simp [curOfListRev] at hx
  | cons c rest ih =>
    intro base i x hx
    rw [curOfListRev] at hx
    rcases List.mem_append.mp hx with hin | hin
    · exact ih (fun d hd => H d (by simp [hd])) (base + msize c) (i + 1) x hin
    · exact H c (by simp) (p ++ [i]) base x hin

theorem curOf_vals_zero : ∀ (e : MatchExpression) (p : NodePath) (base : Nat),
    ∀ x ∈ curOf p base e, x.2 = 0 := by
  have main := MatchExpression.inductOn
    (motive := fun e => ∀ (p : NodePath) (base : Nat),
      ∀ x ∈ curOf p base e, x.2 = 0)
  intro e
  apply main
  intro mt path rt cs ih p base x hx
  by_cases h : nodeCanUseIndexOnOwnField mt
  · rw [curOf] at hx
    simp only [h, if_true] at hx
    simp at hx
    simp [hx]
  · rw [curOf] at hx
    simp only [h, Bool.false_eq_true, if_false] at hx
    by_cases ho : mt = .OR
    · rw [if_pos ho] at hx
      exact curOfListRev_vals_zero_of p cs (fun c hc q b => ih c hc q b) base 0 x hx
    · rw [if_neg ho] at hx
      rcases List.mem_cons.mp hx with heq | hin
      · simp [heq]
      · exact curOfListRev_vals_zero_of p cs (fun c hc q b => ih c hc q b) base 0 x hin

theorem curEnumD_zero (ce : List (Nat × Nat)) (h : ∀ x ∈ ce, x.2 = 0)
    (id : Nat) : curEnumD ce id = 0 := by
  rw [curEnumD]
  cases hl : alookup ce id with
  | none => rfl
  | some v =>
    have := h (id, v) (alookup_isSome_mem hl)
    simp at this
    simp [this]

theorem collectOpts_mem : ∀ (cs : List MatchExpression) (base : Nat)
    (opt : List Nat), opt ∈ collectOpts base cs →
    ∃ k ck, cs.get? k = some ck ∧ indexable ck = true ∧
      opt = [rootIdOf (base + msizeUpTo cs k) ck] := by
  intro cs
  induction cs with
  | nil => intro base opt h; simp [collectOpts] at h
  | cons c rest ih =>
    intro base opt h
    rw [collectOpts] at h
    rcases List.mem_append.mp h with hin | hin
    · by_cases hc : indexable c
      · simp only [hc, if_true] at hin
        have : opt = [rootIdOf base c] := by simpa using hin
        exact ⟨0, c, by simp, hc, by rw [this, msizeUpTo_zero, Nat.add_zero]⟩
      · simp [hc] at hin
    · obtain ⟨k, ck, hk, hi, ho⟩ := ih (base + msize c) opt hin
      refine ⟨k + 1, ck, by simpa using hk, hi, ?_⟩
      rw [ho, msizeUpTo_succ]
      congr 2
      omega

theorem andFinal_mem (cs : List MatchExpression) (base : Nat) (opt : List Nat)
    (h : opt ∈ andFinal base cs) :
    opt = [] ∨ ∃ k ck, cs.get? k = some ck ∧ indexable ck = true ∧
      opt = [rootIdOf (base + msizeUpTo cs k) ck] := by
  rw [andFinal] at h
  cases hg : geoAux 0 none cs with
  | none =>
    rw [hg] at h
    exact Or.inr (collectOpts_mem cs base opt h)
  | some g =>
    rw [hg] at h
    have h' : opt ∈ (if g ≠ 0 then swapFirst (collectOpts base cs) g
        else collectOpts base cs) := h
    by_cases h0 : g ≠ 0
    · rw [if_pos h0, swapFirst] at h'
      rcases List.mem_or_eq_of_mem_set h' with h1 | h1
      · rcases List.mem_or_eq_of_mem_set h1 with h2 | h2
        · exact Or.inr (collectOpts_mem cs base opt h2)
        · subst h2
          cases hget : (collectOpts base cs).get? g with
          | none => simp [hget]
          | some v =>
            simp only [hget, Option.getD_some]
            exact Or.inr (collectOpts_mem cs base v (List.get?_mem hget))
      · subst h1
        cases hget : (collectOpts base cs).get? 0 with
        | none => simp [hget]
        | some v =>
          simp only [hget, Option.getD_some]
          exact Or.inr (collectOpts_mem cs base v (List.get?_mem hget))
    · rw [if_neg h0] at h'
      exact Or.inr (collectOpts_mem cs base opt h')

theorem subtreePathsList_mem_of (p : NodePath) :
    ∀ (cs : List MatchExpression) (k i : Nat) (ck : MatchExpression),
      cs.get? k = some ck →
      ∀ x ∈ subtreePaths (p ++ [i + k]) ck, x ∈ subtreePathsList p i cs := by
  intro cs
  induction cs with
  | nil => intro k i ck h; simp at h
  | cons c rest ih =>
    intro k i ck h x hx
    cases k with
    | zero =>
      simp only [List.get?_cons_zero, Option.some.injEq] at h
      subst h
      rw [subtreePathsList]
      rw [Nat.add_zero] at hx
      exact List.mem_append.mpr (Or.inl hx)
    | succ k =>
      simp only [List.get?_cons_succ] at h
      rw [subtreePathsList]
      refine List.mem_append.mpr (Or.inr ?_)
      have h2 : i + (k + 1) = (i + 1) + k := by omega
      rw [h2] at hx
      exact ih k (i + 1) ck h x hx



theorem tagSeq_children (ctx : MemoCtx) (p : NodePath)
    (hcur : ∀ id, curEnumD ctx.curEnum id = 0) :
    ∀ (cs : List MatchExpression),
      (∀ c ∈ cs, ∀ (q : NodePath) (b : Nat),
        (∀ r, r < msize c → ctx.memo.get? (b + r) = (memoOf q b c).get? r) →
        indexable c = true →
        ∀ (fuel : Nat), msize c ≤ fuel →
        ∀ (T : Tags), (∀ x ∈ subtreePaths q c, getTag T x = none) →
        ∃ T', tagMemo ctx fuel (rootIdOf b c) T = some T' ∧
          (∀ x t, getTag T x = some t → getTag T' x = some t) ∧
          (∀ x t, getTag T' x = some t →
            getTag T x = some t ∨ x ∈ subtreePaths q c)) →
      ∀ (i base fuel : Nat),
      (∀ r, r < msizeList cs →
        ctx.memo.get? (base + r) = (memoOfList p base i cs).get? r) →
      allIndexable cs = true →
      msizeList cs ≤ fuel →
      ∀ (T : Tags), (∀ x ∈ subtreePathsList p i cs, getTag T x = none) →
      ∃ T', tagSeq (tagMemo ctx fuel) (childRootIds base cs) T = some T' ∧
        (∀ x t, getTag T x = some t → getTag T' x = some t) ∧
        (∀ x t, getTag T' x = some t →
          getTag T x = some t ∨ x ∈ subtreePathsList p i cs) := by
  intro cs
  induction cs with
  | nil =>
    intro _ i base fuel _ _ _ T hT
    refine ⟨T, ?_, fun x t h => h, fun x t h => Or.inl h⟩
    simp [childRootIds, tagSeq]
  | cons c rest ih =>
    intro H i base fuel hmem hall hfuel T hT
    rw [allIndexable, Bool.and_eq_true] at hall
    obtain ⟨hic, hirest⟩ := hall
    have hposc := msize_pos c
    have hlenc : (memoOf (p ++ [i]) base c).length = msize c := memoOf_length c _ _
    -- tag the first child
    have hmemc : ∀ r, r < msize c →
        ctx.memo.get? (base + r) = (memoOf (p ++ [i]) base c).get? r := by
      intro r hr
      rw [hmem r (by rw [msizeList]; omega), memoOfList,
        List.get?_append (by omega)]
    have hTc : ∀ x ∈ subtreePaths (p ++ [i]) c, getTag T x = none := by
      intro x hx
      exact hT x (by rw [subtreePathsList]; exact List.mem_append.mpr (Or.inl hx))
    obtain ⟨T1, htag1, hmono1, hnew1⟩ := H c (by simp) (p ++ [i]) base hmemc hic
      fuel (by rw [msizeList] at hfuel; omega) T hTc
    -- tag the remaining children
    have hmemr : ∀ r, r < msizeList rest →
        ctx.memo.get? (base + msize c + r) =
          (memoOfList p (base + msize c) (i + 1) rest).get? r := by
      intro r hr
      have h1 : base + msize c + r = base + (msize c + r) := by omega
      rw [h1, hmem (msize c + r) (by rw [msizeList]; omega), memoOfList,
        List.get?_append_right (by omega), hlenc]
      congr 1
      omega
    have hT1 : ∀ x ∈ subtreePathsList p (i + 1) rest, getTag T1 x = none := by
      intro x hx
      cases hg : getTag T1 x with
      | none => rfl
      | some t =>
        rcases hnew1 x t hg with hold | hsub
        · rw [hT x (by rw [subtreePathsList]; exact List.mem_append.mpr (Or.inr hx))]
            at hold
          cases hold
        · obtain ⟨s, hs⟩ := subtreePaths_shape c (p ++ [i]) x hsub
          obtain ⟨j, s2, hj1, _, hs2⟩ := subtreePathsList_shape p rest (i + 1) x hx
          have hx2 : p ++ ([i] ++ s) = p ++ ([j] ++ s2) := by
            rw [← List.append_assoc, ← hs, hs2]
            simp
          have := List.append_cancel_left hx2
          simp at this
          omega
    obtain ⟨T2, htag2, hmono2, hnew2⟩ := ih (fun d hd => H d (by simp [hd]))
      (i + 1) (base + msize c) fuel hmemr hirest
      (by rw [msizeList] at hfuel; omega) T1 hT1
    refine ⟨T2, ?_, fun x t h => hmono2 x t (hmono1 x t h), ?_⟩
    · rw [childRootIds, tagSeq, htag1]
      exact htag2
    · intro x t h
      rcases hnew2 x t h with h1 | h1
      · rcases hnew1 x t h1 with h2 | h2
        · exact Or.inl h2
        · exact Or.inr (by rw [subtreePathsList]; exact List.mem_append.mpr (Or.inl h2))
      · exact Or.inr (by rw [subtreePathsList]; exact List.mem_append.mpr (Or.inr h1))

theorem tagMemo_succeeds : ∀ (e : MatchExpression) (p : NodePath) (base : Nat)
    (ctx : MemoCtx),
    (∀ id, curEnumD ctx.curEnum id = 0) →
    (∀ r, r < msize e → ctx.memo.get? (base + r) = (memoOf p base e).get? r) →
    indexable e = true →
    ∀ (fuel : Nat), msize e ≤ fuel →
    ∀ (T : Tags), (∀ x ∈ subtreePaths p e, getTag T x = none) →
    ∃ T', tagMemo ctx fuel (rootIdOf base e) T = some T' ∧
      (∀ x t, getTag T x = some t → getTag T' x = some t) ∧
      (∀ x t, getTag T' x = some t →
        getTag T x = some t ∨ x ∈ subtreePaths p e) := by
  have main := MatchExpression.inductOn
    (motive := fun e => ∀ (p : NodePath) (base : Nat) (ctx : MemoCtx),
      (∀ id, curEnumD ctx.curEnum id = 0) →
      (∀ r, r < msize e → ctx.memo.get? (base + r) = (memoOf p base e).get? r) →
      indexable e = true →
      ∀ (fuel : Nat), msize e ≤ fuel →
      ∀ (T : Tags), (∀ x ∈ subtreePaths p e, getTag T x = none) →
      ∃ T', tagMemo ctx fuel (rootIdOf base e) T = some T' ∧
        (∀ x t, getTag T x = some t → getTag T' x = some t) ∧
        (∀ x t, getTag T' x = some t →
          getTag T x = some t ∨ x ∈ subtreePaths p e))
  intro e
  apply main
  intro mt path rt cs ih p base ctx hcur hmem hidx fuel hfuel T hT
  have hpos := msize_pos (MatchExpression.node mt path rt cs)
  cases fuel with
  | zero => omega
  | succ fl =>
  have hown0 := hmem (msize (MatchExpression.node mt path rt cs) - 1) (by omega)
  rw [memoOf_own] at hown0
  have hroot : rootIdOf base (MatchExpression.node mt path rt cs) =
      base + (msize (MatchExpression.node mt path rt cs) - 1) := by
    rw [rootIdOf]
    omega
  by_cases hleaf : nodeCanUseIndexOnOwnField mt
  · -- predicate leaf
    have harr := classifier_not_array hleaf
    have hrt : ∃ r, rt = some r ∧ 0 < r.first.length := by
      simp only [indexable] at hidx
      simp only [harr, Bool.false_eq_true, if_false, hleaf, if_true] at hidx
      cases rt with
      | none => cases hidx
      | some r => exact ⟨r, rfl, by simpa using hidx⟩
    obtain ⟨r, hr, hrlen⟩ := hrt
    have hownEq : ownEntry p base (MatchExpression.node mt path rt cs) =
        .pred r.first r.notFirst p := by
      simp only [ownEntry]
      simp [harr, hleaf, hr]
    rw [hownEq] at hown0
    obtain ⟨idx, hidxget⟩ : ∃ v, r.first.get? 0 = some v :=
      ⟨r.first.get ⟨0, hrlen⟩, List.get?_eq_get hrlen⟩
    have hTp : getTag T p = none := hT p (subtreePaths_self _ p)
    refine ⟨setTag T p ⟨idx, 0⟩, ?_, ?_, ?_⟩
    · rw [tagMemo, hroot, hown0]
      have h1 : (getTag T p).isSome = false := by rw [hTp]; rfl
      simp only [h1, Bool.false_eq_true, if_false]
      have h2 : r.first.isEmpty = false := by
        cases hf : r.first with
        | nil => rw [hf] at hrlen; simp at hrlen
        | cons a tl => rfl
      simp only [h2, Bool.false_eq_true, if_false, hcur, hidxget]
    · intro x t hx
      by_cases hxp : p = x
      · subst hxp; rw [hx] at hTp; cases hTp
      · simp only [getTag, setTag]
        rw [alookup_cons_ne _ _ hxp]
        exact hx
    · intro x t hx
      by_cases hxp : p = x
      · subst hxp
        exact Or.inr (subtreePaths_self _ p)
      · simp only [getTag, setTag] at hx
        rw [alookup_cons_ne _ _ hxp] at hx
        exact Or.inl hx
  · -- internal node: the entry is an OrSolution or an AndSolution
    have hmsz : msize (MatchExpression.node mt path rt cs) = 1 + msizeList cs := by
      simp [msize, hleaf]
    have hmemList : ∀ r, r < msizeList cs →
        ctx.memo.get? (base + r) = (memoOfList p base 0 cs).get? r := by
      intro r hr
      rw [hmem r (by omega), memoOf]
      simp only [hleaf, Bool.false_eq_true, if_false]
      rw [List.get?_append (by rw [memoOfList_length]; omega)]
    have hfl : msizeList cs ≤ fl := by omega
    have hTsub : ∀ x ∈ subtreePathsList p 0 cs, getTag T x = none := by
      intro x hx
      refine hT x ?_
      rw [subtreePaths]
      exact List.mem_cons.mpr (Or.inr hx)
    have hchild : ∀ c ∈ cs, ∀ (q : NodePath) (b : Nat),
        (∀ r, r < msize c → ctx.memo.get? (b + r) = (memoOf q b c).get? r) →
        indexable c = true →
        ∀ (fuel' : Nat), msize c ≤ fuel' →
        ∀ (T' : Tags), (∀ x ∈ subtreePaths q c, getTag T' x = none) →
        ∃ T'', tagMemo ctx fuel' (rootIdOf b c) T' = some T'' ∧
          (∀ x t, getTag T' x = some t → getTag T'' x = some t) ∧
          (∀ x t, getTag T'' x = some t →
            getTag T' x = some t ∨ x ∈ subtreePaths q c) := by
      intro c hc q b hm hi fuel' hf T' hT'
      exact ih c hc q b ctx hcur hm hi fuel' hf T' hT'
    by_cases hor : mt = MatchType.OR
    · -- disjunction
      have hownEq : ownEntry p base (MatchExpression.node mt path rt cs) =
          .orSolution (childRootIds base cs) := by
        subst hor
        simp only [ownEntry]
        simp [arrayUsesIndexOnChildren, nodeCanUseIndexOnOwnField]
      rw [hownEq] at hown0
      have hall : allIndexable cs = true := by
        subst hor
        simp only [indexable] at hidx
        simpa [arrayUsesIndexOnChildren, nodeCanUseIndexOnOwnField, isLogical]
          using hidx
      obtain ⟨T', htag, hmono, hnew⟩ := tagSeq_children ctx p hcur cs hchild 0
        base fl hmemList hall hfl T hTsub
      refine ⟨T', ?_, hmono, ?_⟩
      · rw [tagMemo, hroot, hown0]
        exact htag
      · intro x t hx
        rcases hnew x t hx with h1 | h1
        · exact Or.inl h1
        · refine Or.inr ?_
          rw [subtreePaths]
          exact List.mem_cons.mpr (Or.inr h1)
    · -- conjunction or array-scoped node: an AndSolution with the collected
      -- options, each a singleton holding an indexable child's root id
      have hany : anyIndexable cs = true := by
        simp only [indexable] at hidx
        by_cases harr : arrayUsesIndexOnChildren mt
        · simpa [harr] using hidx
        · simp only [harr, Bool.false_eq_true, if_false, hleaf] at hidx
          by_cases hlog : isLogical mt
          · simpa [hlog, hor] using hidx
          · simp [hlog] at hidx
      have hopts : ∃ opts, ownEntry p base (MatchExpression.node mt path rt cs) =
          .andSolution opts ∧ decide (0 < opts.length) = anyIndexable cs ∧
          (∀ opt ∈ opts, opt = [] ∨ ∃ k ck, cs.get? k = some ck ∧
            indexable ck = true ∧
            opt = [rootIdOf (base + msizeUpTo cs k) ck]) := by
        by_cases harr : arrayUsesIndexOnChildren mt
        · refine ⟨collectOpts base cs, ?_, collectOpts_pos cs base, ?_⟩
          · simp only [ownEntry]; simp [harr]
          · intro opt hopt
            exact Or.inr (collectOpts_mem cs base opt hopt)
        · refine ⟨andFinal base cs, ?_, andFinal_pos cs base, ?_⟩
          · simp only [ownEntry]; simp [harr, hleaf, hor]
          · intro opt hopt
            exact andFinal_mem cs base opt hopt
      obtain ⟨opts, hownEq, hlen, hmemopt⟩ := hopts
      rw [hownEq] at hown0
      have hlen' : 0 < opts.length := by
        rw [hany] at hlen
        exact of_decide_eq_true hlen
      obtain ⟨cur, hcurget⟩ : ∃ v, opts.get? 0 = some v :=
        ⟨opts.get ⟨0, hlen'⟩, List.get?_eq_get hlen'⟩
      rcases hmemopt cur (List.get?_mem hcurget) with hnil | ⟨k, ck, hk, hick, hcureq⟩
      · -- the chosen option is the out-of-bounds default: nothing to tag
        subst hnil
        refine ⟨T, ?_, fun x t h => h, fun x t h => Or.inl h⟩
        rw [tagMemo, hroot, hown0]
        simp only [hcur, hcurget, tagSeq]
      · -- the chosen option holds one indexable child's root id
        have hposk := msize_pos ck
        have hlek := msizeUpTo_get_le cs k ck hk
        have hmemck : ∀ r, r < msize ck →
            ctx.memo.get? (base + msizeUpTo cs k + r) =
              (memoOf (p ++ [k]) (base + msizeUpTo cs k) ck).get? r := by
          intro r hr
          have h1 : base + msizeUpTo cs k + r = base + (msizeUpTo cs k + r) := by
            omega
          rw [h1, hmemList (msizeUpTo cs k + r) (by omega)]
          have h2 := memoOfList_get p cs k ck base 0 r hk hr
          rw [Nat.zero_add] at h2
          exact h2
        have hTck : ∀ x ∈ subtreePaths (p ++ [k]) ck, getTag T x = none := by
          intro x hx
          refine hTsub x ?_
          have := subtreePathsList_mem_of p cs k 0 ck hk x (by
            rw [Nat.zero_add]; exact hx)
          exact this
        obtain ⟨T1, htag1, hmono1, hnew1⟩ := ih ck (List.get?_mem hk) (p ++ [k])
          (base + msizeUpTo cs k) ctx hcur hmemck hick fl (by omega) T hTck
        refine ⟨T1, ?_, hmono1, ?_⟩
        · rw [tagMemo, hroot, hown0]
          simp only [hcur, hcurget, hcureq, tagSeq, htag1]
        · intro x t hx
          rcases hnew1 x t hx with h1 | h1
          · exact Or.inl h1
          · refine Or.inr ?_
            rw [subtreePaths]
            refine List.mem_cons.mpr (Or.inr ?_)
            have := subtreePathsList_mem_of p cs k 0 ck hk x (by
              rw [Nat.zero_add]; exact h1)
            exact this

/-- C10: from the state built by `prepMemo` on an indexable root (relevance
tags cleared, cursor all zeros), the tagger completes without tripping any
of its assertions — in particular the `verify(NULL == ...getTag())` that a
Predicate leaf is still untagged when visited — because the traversal
reaches each Predicate entry at most once and sibling subtrees are
disjoint. -/
theorem c10_tagger_never_fails (root : MatchExpression)
    (hidx : (prepMemo [] root initState).2 = true) :
    ∃ tags', tagMemo
        ⟨(prepMemo [] root initState).1.memo,
         (prepMemo [] root initState).1.curEnum⟩
        (prepMemo [] root initState).1.inOrderCount
        (lookupNodeId (prepMemo [] root initState).1.nodeToId []) [] =
      some tags' := by
  have heq := prepMemo_eq root [] initState rfl
  rw [heq] at hidx ⊢
  simp only [afterPrep, initState, List.append_nil, Nat.zero_add] at hidx ⊢
  have hcur : ∀ id, curEnumD (curOf [] 0 root) id = 0 :=
    curEnumD_zero _ (curOf_vals_zero root [] 0)
  have hmem : ∀ r, r < msize root →
      (memoOf [] 0 root).get? (0 + r) = (memoOf [] 0 root).get? r := by
    intro r _
    rw [Nat.zero_add]
  have hlook : lookupNodeId (pairsOf [] 0 root) [] = rootIdOf 0 root := by
    rw [lookupNodeId, alookup_pairsOf_self]
    rfl
  rw [hlook]
  obtain ⟨T', htag, _, _⟩ := tagMemo_succeeds root [] 0
    ⟨memoOf [] 0 root, curOf [] 0 root⟩ hcur hmem hidx (msize root) le_rfl []
    (fun x _ => rfl)
  exact ⟨T', htag⟩

/-- Closed-form check of `c10_tagger_never_fails` on `AND(a, b)`. -/
theorem c10_tagger_never_fails_witness :
    ∃ tags', tagMemo
        ⟨(prepMemo [] exAndAB initState).1.memo,
         (prepMemo [] exAndAB initState).1.curEnum⟩
        (prepMemo [] exAndAB initState).1.inOrderCount
        (lookupNodeId (prepMemo [] exAndAB initState).1.nodeToId []) [] =
      some tags' :=
  c10_tagger_never_fails exAndAB (by rfl)



/-! ### The compound completer (claims C7, C8) -/

theorem partitionChildren_spec (ctx : CCCtx) (tags : Tags) (p : NodePath) :
    ∀ (cs : List MatchExpression) (i : Nat)
      (assigned unassigned : List (NodePath × MatchExpression)),
    partitionChildren ctx tags p i cs = some (assigned, unassigned) →
    (∀ qc ∈ unassigned, ∃ k c, cs.get? k = some c ∧ qc = (p ++ [i + k], c) ∧
      getTag tags (p ++ [i + k]) = none ∧
      nodeCanUseIndexOnOwnField c.matchType = true) ∧
    (∀ qc ∈ assigned, ∃ k c t, cs.get? k = some c ∧ qc = (p ++ [i + k], c) ∧
      getTag tags (p ++ [i + k]) = some t ∧
      nodeCanUseIndexOnOwnField c.matchType = true) := by
  intro cs
  induction cs with
  | nil =>
    intro i assigned unassigned h
    simp only [partitionChildren, Option.some.injEq, Prod.mk.injEq] at h
    obtain ⟨h1, h2⟩ := h
    subst h1
    subst h2
    exact ⟨fun qc hqc => by simp at hqc, fun qc hqc => by simp at hqc⟩
  | cons c rest ih =>
    intro i assigned unassigned h
    rw [partitionChildren] at h
    by_cases hleaf : nodeCanUseIndexOnOwnField c.matchType
    · simp only [hleaf, if_true] at h
      cases hm : ctx.memo.get? (lookupNodeId ctx.nodeToId (p ++ [i])) with
      | none => rw [hm] at h; cases h
      | some entry =>
        rw [hm] at h
        cases entry with
        | pred f nf e =>
          cases ht : getTag tags (p ++ [i]) with
          | none =>
            rw [ht] at h
            cases hrec : partitionChildren ctx tags p (i + 1) rest with
            | none => rw [hrec] at h; cases h
            | some au =>
              obtain ⟨a, u⟩ := au
              rw [hrec] at h
              simp only [Option.some.injEq, Prod.mk.injEq] at h
              obtain ⟨h1, h2⟩ := h
              subst h1
              subst h2
              obtain ⟨hu, ha⟩ := ih (i + 1) a u hrec
              constructor
              · intro qc hqc
                rcases List.mem_cons.mp hqc with heq | hin
                · exact ⟨0, c, by simp, by simp [heq], by simpa using ht, hleaf⟩
                · obtain ⟨k, c2, hk, heq, htag, hlf⟩ := hu qc hin
                  exact ⟨k + 1, c2, by simpa using hk,
                    by rw [heq, show i + 1 + k = i + (k + 1) from by omega],
                    by rw [show i + (k + 1) = i + 1 + k from by omega]; exact htag,
                    hlf⟩
              · intro qc hqc
                obtain ⟨k, c2, t2, hk, heq, htag, hlf⟩ := ha qc hqc
                exact ⟨k + 1, c2, t2, by simpa using hk,
                  by rw [heq, show i + 1 + k = i + (k + 1) from by omega],
                  by rw [show i + (k + 1) = i + 1 + k from by omega]; exact htag,
                  hlf⟩
          | some t =>
            rw [ht] at h
            have h2 : (match ctx.indices.get? t.index with
                | none => none
                | some ie =>
                  if 1 < ie.keyPattern.length then
                    match partitionChildren ctx tags p (i + 1) rest with
                    | none => none
                    | some (a, u) => some ((p ++ [i], c) :: a, u)
                  else partitionChildren ctx tags p (i + 1) rest) =
                some (assigned, unassigned) := h
            clear h
            cases hie : ctx.indices.get? t.index with
            | none => rw [hie] at h2; cases h2
            | some ie =>
              rw [hie] at h2
              have h3 : (if 1 < ie.keyPattern.length then
                  match partitionChildren ctx tags p (i + 1) rest with
                  | none => none
                  | some (a, u) => some ((p ++ [i], c) :: a, u)
                else partitionChildren ctx tags p (i + 1) rest) =
                  some (assigned, unassigned) := h2
              clear h2
              by_cases hkp : 1 < ie.keyPattern.length
              · rw [if_pos hkp] at h3
                cases hrec : partitionChildren ctx tags p (i + 1) rest with
                | none => rw [hrec] at h3; cases h3
                | some au =>
                  obtain ⟨a, u⟩ := au
                  rw [hrec] at h3
                  simp only [Option.some.injEq, Prod.mk.injEq] at h3
                  obtain ⟨ha1, ha2⟩ := h3
                  subst ha1
                  subst ha2
                  obtain ⟨hu, ha⟩ := ih (i + 1) a u hrec
                  constructor
                  · intro qc hqc
                    obtain ⟨k, c2, hk, heq, htag, hlf⟩ := hu qc hqc
                    exact ⟨k + 1, c2, by simpa using hk,
                      by rw [heq, show i + 1 + k = i + (k + 1) from by omega],
                      by rw [show i + (k + 1) = i + 1 + k from by omega]; exact htag,
                      hlf⟩
                  · intro qc hqc
                    rcases List.mem_cons.mp hqc with heq | hin
                    · exact ⟨0, c, t, by simp, by simp [heq],
                        by simpa using ht, hleaf⟩
                    · obtain ⟨k, c2, t2, hk, heq, htag, hlf⟩ := ha qc hin
                      exact ⟨k + 1, c2, t2, by simpa using hk,
                        by rw [heq, show i + 1 + k = i + (k + 1) from by omega],
                        by rw [show i + (k + 1) = i + 1 + k from by omega]; exact htag,
                        hlf⟩
              · rw [if_neg hkp] at h3
                obtain ⟨hu, ha⟩ := ih (i + 1) assigned unassigned h3
                constructor
                · intro qc hqc
                  obtain ⟨k, c2, hk, heq, htag, hlf⟩ := hu qc hqc
                  exact ⟨k + 1, c2, by simpa using hk,
                    by rw [heq, show i + 1 + k = i + (k + 1) from by omega],
                    by rw [show i + (k + 1) = i + 1 + k from by omega]; exact htag,
                    hlf⟩
                · intro qc hqc
                  obtain ⟨k, c2, t2, hk, heq, htag, hlf⟩ := ha qc hqc
                  exact ⟨k + 1, c2, t2, by simpa using hk,
                    by rw [heq, show i + 1 + k = i + (k + 1) from by omega],
                    by rw [show i + (k + 1) = i + 1 + k from by omega]; exact htag,
                    hlf⟩
        | andSolution subs => exact Option.noConfusion h
        | orSolution subs => exact Option.noConfusion h
    · simp only [hleaf, Bool.false_eq_true, if_false] at h
      obtain ⟨hu, ha⟩ := ih (i + 1) assigned unassigned h
      constructor
      · intro qc hqc
        obtain ⟨k, c2, hk, heq, htag, hlf⟩ := hu qc hqc
        exact ⟨k + 1, c2, by simpa using hk,
          by rw [heq, show i + 1 + k = i + (k + 1) from by omega],
          by rw [show i + (k + 1) = i + 1 + k from by omega]; exact htag,
          hlf⟩
      · intro qc hqc
        obtain ⟨k, c2, t2, hk, heq, htag, hlf⟩ := ha qc hqc
        exact ⟨k + 1, c2, t2, by simpa using hk,
          by rw [heq, show i + 1 + k = i + (k + 1) from by omega],
          by rw [show i + (k + 1) = i + 1 + k from by omega]; exact htag,
          hlf⟩



theorem findAndAssign_some (ctx : CCCtx) (I : Nat) (pfx col : String)
    (pos : Nat) : ∀ (lst : List (NodePath × MatchExpression)) (tags tags' : Tags),
    findAndAssign ctx I pfx col pos tags lst = some (some tags') →
    ∃ j q c f nf, lst.get? j = some (q, c) ∧
      tags' = setTag tags q ⟨I, pos⟩ ∧
      getTag tags q = none ∧
      pfx ++ c.path = col ∧
      ctx.memo.get? (lookupNodeId ctx.nodeToId q) = some (.pred f nf q) ∧
      I ∈ nf ∧
      (∀ j' < j, ∀ q' c', lst.get? j' = some (q', c') →
        ¬(pfx ++ c'.path = col ∧ getTag tags q' = none ∧
          ∃ f' nf', ctx.memo.get? (lookupNodeId ctx.nodeToId q') =
            some (.pred f' nf' q') ∧ I ∈ nf')) := by
  intro lst
  induction lst with
  | nil => intro tags tags' h; simp [findAndAssign] at h
  | cons qc rest ih =>
    intro tags tags' h
    obtain ⟨q, c⟩ := qc
    rw [findAndAssign] at h
    by_cases hpath : pfx ++ c.path ≠ col
    · rw [if_pos hpath] at h
      obtain ⟨j, q2, c2, f, nf, hget, heq, hnone, hcol, hmemo, hmem, hfirst⟩ :=
        ih tags tags' h
      refine ⟨j + 1, q2, c2, f, nf, by simpa using hget, heq, hnone, hcol,
        hmemo, hmem, ?_⟩
      intro j' hj' q' c' hget' hcand
      cases j' with
      | zero =>
        simp only [List.get?_cons_zero, Option.some.injEq, Prod.mk.injEq] at hget'
        obtain ⟨h1, h2⟩ := hget'
        subst h1
        subst h2
        exact hpath hcand.1
      | succ j' =>
        exact hfirst j' (by omega) q' c' (by simpa using hget') hcand
    · rw [if_neg hpath] at h
      by_cases htag : (getTag tags q).isSome
      · rw [if_pos htag] at h
        obtain ⟨j, q2, c2, f, nf, hget, heq, hnone, hcol, hmemo, hmem, hfirst⟩ :=
          ih tags tags' h
        refine ⟨j + 1, q2, c2, f, nf, by simpa using hget, heq, hnone, hcol,
          hmemo, hmem, ?_⟩
        intro j' hj' q' c' hget' hcand
        cases j' with
        | zero =>
          simp only [List.get?_cons_zero, Option.some.injEq, Prod.mk.injEq] at hget'
          obtain ⟨h1, h2⟩ := hget'
          subst h1
          subst h2
          rw [hcand.2.1] at htag
          cases htag
        | succ j' =>
          exact hfirst j' (by omega) q' c' (by simpa using hget') hcand
      · rw [if_neg htag] at h
        cases hm : ctx.memo.get? (lookupNodeId ctx.nodeToId q) with
        | none => rw [hm] at h; cases h
        | some entry =>
          rw [hm] at h
          cases entry with
          | pred f nf e =>
            have h2 : (if e ≠ q then none
                else if I ∈ nf then some (some (setTag tags q ⟨I, pos⟩))
                else findAndAssign ctx I pfx col pos tags rest) =
                some (some tags') := h
            clear h
            by_cases he : e ≠ q
            · rw [if_pos he] at h2; cases h2
            · rw [if_neg he] at h2
              have heq : e = q := by
                by_contra hc
                exact he hc
              subst heq
              by_cases hmem : I ∈ nf
              · rw [if_pos hmem] at h2
                simp only [Option.some.injEq] at h2
                refine ⟨0, e, c, f, nf, by simp, h2.symm,
                  Option.not_isSome_iff_eq_none.mp htag,
                  by by_contra hc; exact hpath hc, hm, hmem, ?_⟩
                intro j' hj'
                omega
              · rw [if_neg hmem] at h2
                obtain ⟨j, q2, c2, f2, nf2, hget, heqq, hnone, hcol, hmemo,
                  hmem2, hfirst⟩ := ih tags tags' h2
                refine ⟨j + 1, q2, c2, f2, nf2, by simpa using hget, heqq,
                  hnone, hcol, hmemo, hmem2, ?_⟩
                intro j' hj' q' c' hget' hcand
                cases j' with
                | zero =>
                  simp only [List.get?_cons_zero, Option.some.injEq,
                    Prod.mk.injEq] at hget'
                  obtain ⟨h1, h2⟩ := hget'
                  subst h1
                  subst h2
                  obtain ⟨_, _, f', nf', hm', hmem'⟩ := hcand
                  rw [hm] at hm'
                  simp only [Option.some.injEq, NodeSolution.pred.injEq] at hm'
                  obtain ⟨_, hnf, _⟩ := hm'
                  subst hnf
                  exact hmem hmem'
                | succ j' =>
                  exact hfirst j' (by omega) q' c' (by simpa using hget') hcand
          | andSolution subs => cases h
          | orSolution subs => cases h

theorem completeCols_spec (ctx : CCCtx) (I : Nat) (pfx : String)
    (unassigned : List (NodePath × MatchExpression)) :
    ∀ (cols : List String) (pos : Nat) (tags tags' : Tags),
    completeCols ctx I pfx unassigned cols pos tags = some tags' →
    ∃ k, k ≤ cols.length ∧
      (∀ x t, getTag tags x = some t → getTag tags' x = some t) ∧
      (∀ x t, getTag tags' x = some t → getTag tags x = some t ∨
        (getTag tags x = none ∧ t.index = I ∧ pos ≤ t.pos ∧ t.pos < pos + k ∧
         (∃ j c, unassigned.get? j = some (x, c) ∧
           (∃ f nf, ctx.memo.get? (lookupNodeId ctx.nodeToId x) =
             some (.pred f nf x) ∧ I ∈ nf) ∧
           cols.get? (t.pos - pos) = some (pfx ++ c.path)))) ∧
      (∀ q, pos ≤ q → q < pos + k →
        ∃ x j c, unassigned.get? j = some (x, c) ∧
          getTag tags' x = some ⟨I, q⟩) := by
  intro cols
  induction cols with
  | nil =>
    intro pos tags tags' h
    simp only [completeCols, Option.some.injEq] at h
    subst h
    exact ⟨0, by simp, fun x t ht => ht, fun x t ht => Or.inl ht,
      fun q h1 h2 => by omega⟩
  | cons col rest ih =>
    intro pos tags tags' h
    rw [completeCols] at h
    cases hfa : findAndAssign ctx I pfx col pos tags unassigned with
    | none => rw [hfa] at h; cases h
    | some r =>
      rw [hfa] at h
      cases r with
      | none =>
        simp only [Option.some.injEq] at h
        subst h
        exact ⟨0, by simp, fun x t ht => ht, fun x t ht => Or.inl ht,
          fun q h1 h2 => by omega⟩
      | some tags1 =>
        obtain ⟨j0, x0, c0, f0, nf0, hget0, heq0, hnone0, hcol0, hm0, hmem0,
          _⟩ := findAndAssign_some ctx I pfx col pos unassigned tags tags1 hfa
        obtain ⟨k', hk'len, mono1, new1, hpos1⟩ := ih (pos + 1) tags1 tags' h
        have hmono01 : ∀ x t, getTag tags x = some t → getTag tags1 x = some t := by
          intro x t ht
          subst heq0
          by_cases hxx : x0 = x
          · subst hxx; rw [ht] at hnone0; cases hnone0
          · simp only [getTag, setTag]
            rw [alookup_cons_ne _ _ hxx]
            exact ht
        have htags1x0 : getTag tags1 x0 = some ⟨I, pos⟩ := by
          subst heq0
          simp [getTag, setTag, alookup_cons_self]
        refine ⟨k' + 1, by simp; omega, ?_, ?_, ?_⟩
        · intro x t ht
          exact mono1 x t (hmono01 x t ht)
        · intro x t ht
          rcases new1 x t ht with h1 | ⟨hn1, hidx1, hge1, hlt1, j1, c1, hu1, hpred1, hcols1⟩
          · subst heq0
            by_cases hxx : x0 = x
            · subst hxx
              simp only [getTag, setTag, alookup_cons_self, Option.some.injEq] at h1
              subst h1
              refine Or.inr ⟨hnone0, rfl, le_rfl,
                by show pos < pos + (k' + 1); omega, j0, c0, hget0,
                ⟨f0, nf0, hm0, hmem0⟩, ?_⟩
              simp only [Nat.sub_self, List.get?_cons_zero, hcol0]
            · simp only [getTag, setTag] at h1
              rw [alookup_cons_ne _ _ hxx] at h1
              exact Or.inl h1
          · refine Or.inr ⟨?_, hidx1, by omega, by omega, j1, c1, hu1, hpred1, ?_⟩
            · cases hg : getTag tags x with
              | none => rfl
              | some u => rw [hmono01 x u hg] at hn1; cases hn1
            · have harith : t.pos - pos = (t.pos - (pos + 1)) + 1 := by omega
              rw [harith, List.get?_cons_succ]
              exact hcols1
        · intro q hq1 hq2
          by_cases hqp : q = pos
          · subst hqp
            exact ⟨x0, j0, c0, hget0, mono1 x0 ⟨I, q⟩ htags1x0⟩
          · exact hpos1 q (by omega) (by omega)

theorem completeAssigned_spec (ctx : CCCtx) (pfx : String)
    (unassigned : List (NodePath × MatchExpression)) :
    ∀ (assigned : List (NodePath × MatchExpression)) (i : Nat)
      (tags tags' : Tags),
    completeAssigned ctx pfx unassigned i assigned tags = some tags' →
    (∀ x t, getTag tags x = some t → getTag tags' x = some t) ∧
    (∀ x t, getTag tags' x = some t → getTag tags x = some t ∨
      (getTag tags x = none ∧ 1 ≤ t.pos ∧
       ∃ j c, unassigned.get? j = some (x, c) ∧
         (∃ f nf, ctx.memo.get? (lookupNodeId ctx.nodeToId x) =
           some (.pred f nf x) ∧ t.index ∈ nf) ∧
         (∃ ie, ctx.indices.get? t.index = some ie ∧
           ie.keyPattern.get? t.pos = some (pfx ++ c.path)))) := by
  intro assigned
  induction assigned with
  | nil =>
    intro i tags tags' h
    simp only [completeAssigned, Option.some.injEq] at h
    subst h
    exact ⟨fun x t ht => ht, fun x t ht => Or.inl ht⟩
  | cons qc rest ih =>
    intro i tags tags' h
    obtain ⟨q0, c0⟩ := qc
    rw [completeAssigned] at h
    cases hct : getTag tags q0 with
    | none => rw [hct] at h; cases h
    | some childTag =>
      rw [hct] at h
      cases hii : ctx.indices.get? i with
      | none => rw [hii] at h; cases h
      | some iei =>
        rw [hii] at h
        have h2 : (if iei.multikey then
            completeAssigned ctx pfx unassigned (i + 1) rest tags
          else
            match ctx.indices.get? childTag.index with
            | none => none
            | some ie =>
              match ie.keyPattern with
              | [] => none
              | [_] => none
              | _ :: restCols =>
                match completeCols ctx childTag.index pfx unassigned restCols
                    1 tags with
                | none => none
                | some tags1 =>
                  completeAssigned ctx pfx unassigned (i + 1) rest tags1) =
            some tags' := h
        clear h
        by_cases hmk : iei.multikey
        · rw [if_pos hmk] at h2
          exact ih (i + 1) tags tags' h2
        · rw [if_neg hmk] at h2
          cases hie : ctx.indices.get? childTag.index with
          | none => rw [hie] at h2; cases h2
          | some ie =>
            rw [hie] at h2
            have h3 : (match ie.keyPattern with
                | [] => none
                | [_] => none
                | _ :: restCols =>
                  match completeCols ctx childTag.index pfx unassigned restCols
                      1 tags with
                  | none => none
                  | some tags1 =>
                    completeAssigned ctx pfx unassigned (i + 1) rest tags1) =
                some tags' := h2
            clear h2
            cases hkp : ie.keyPattern with
            | nil => rw [hkp] at h3; exact Option.noConfusion h3
            | cons kc restCols =>
              rw [hkp] at h3
              cases restCols with
              | nil => exact Option.noConfusion h3
              | cons kc2 restCols2 =>
                have h4 : (match completeCols ctx childTag.index pfx unassigned
                    (kc2 :: restCols2) 1 tags with
                  | none => none
                  | some tags1 =>
                    completeAssigned ctx pfx unassigned (i + 1) rest tags1) =
                    some tags' := h3
                clear h3
                cases hcc : completeCols ctx childTag.index pfx unassigned
                    (kc2 :: restCols2) 1 tags with
                | none => rw [hcc] at h4; cases h4
                | some tags1 =>
                  rw [hcc] at h4
                  obtain ⟨k, _, mono1, new1, _⟩ :=
                    completeCols_spec ctx childTag.index pfx unassigned
                      (kc2 :: restCols2) 1 tags tags1 hcc
                  obtain ⟨mono2, new2⟩ := ih (i + 1) tags1 tags' h4
                  refine ⟨fun x t ht => mono2 x t (mono1 x t ht), ?_⟩
                  intro x t ht
                  rcases new2 x t ht with h1 | ⟨hn1, hpos1, hrest1⟩
                  · rcases new1 x t h1 with h2 | ⟨hn2, hidx2, hge2, hlt2, j2,
                      c2, hu2, hpred2, hcols2⟩
                    · exact Or.inl h2
                    · refine Or.inr ⟨hn2, by omega, j2, c2, hu2, ?_, ?_⟩
                      · obtain ⟨f, nf, hm, hmem⟩ := hpred2
                        exact ⟨f, nf, hm, by rw [hidx2]; exact hmem⟩
                      · refine ⟨ie, by rw [hidx2]; exact hie, ?_⟩
                        rw [hkp]
                        have harith : t.pos = (t.pos - 1) + 1 := by omega
                        rw [harith, List.get?_cons_succ]
                        simpa using hcols2
                  · refine Or.inr ⟨?_, hpos1, hrest1⟩
                    cases hg : getTag tags x with
                    | none => rfl
                    | some u => rw [mono1 x u hg] at hn1; cases hn1

theorem completeAssigned_down (ctx : CCCtx) (pfx : String)
    (unassigned srcs : List (NodePath × MatchExpression)) (tags0 : Tags)
    (h0 : ∀ x t, getTag tags0 x = some t → t.pos = 0) :
    ∀ (assigned : List (NodePath × MatchExpression)) (i : Nat)
      (tags tags' : Tags),
    (∀ qc ∈ assigned, qc ∈ srcs) →
    (∀ x t, getTag tags0 x = some t → getTag tags x = some t) →
    DownClosed unassigned srcs tags0 tags →
    completeAssigned ctx pfx unassigned i assigned tags = some tags' →
    (∀ x t, getTag tags0 x = some t → getTag tags' x = some t) ∧
    DownClosed unassigned srcs tags0 tags' := by
  intro assigned
  induction assigned with
  | nil =>
    intro i tags tags' _ hmono hdown h
    simp only [completeAssigned, Option.some.injEq] at h
    subst h
    exact ⟨hmono, hdown⟩
  | cons qc rest ih =>
    intro i tags tags' hsub hmono hdown h
    obtain ⟨q0, c0⟩ := qc
    rw [completeAssigned] at h
    cases hct : getTag tags q0 with
    | none => rw [hct] at h; cases h
    | some childTag =>
      rw [hct] at h
      cases hii : ctx.indices.get? i with
      | none => rw [hii] at h; cases h
      | some iei =>
        rw [hii] at h
        have h2 : (if iei.multikey then
            completeAssigned ctx pfx unassigned (i + 1) rest tags
          else
            match ctx.indices.get? childTag.index with
            | none => none
            | some ie =>
              match ie.keyPattern with
              | [] => none
              | [_] => none
              | _ :: restCols =>
                match completeCols ctx childTag.index pfx unassigned restCols
                    1 tags with
                | none => none
                | some tags1 =>
                  completeAssigned ctx pfx unassigned (i + 1) rest tags1) =
            some tags' := h
        clear h
        by_cases hmk : iei.multikey
        · rw [if_pos hmk] at h2
          exact ih (i + 1) tags tags' (fun qc hqc => hsub qc (by simp [hqc]))
            hmono hdown h2
        · rw [if_neg hmk] at h2
          cases hie : ctx.indices.get? childTag.index with
          | none => rw [hie] at h2; cases h2
          | some ie =>
            rw [hie] at h2
            have h3 : (match ie.keyPattern with
                | [] => none
                | [_] => none
                | _ :: restCols =>
                  match completeCols ctx childTag.index pfx unassigned restCols
                      1 tags with
                  | none => none
                  | some tags1 =>
                    completeAssigned ctx pfx unassigned (i + 1) rest tags1) =
                some tags' := h2
            clear h2
            cases hkp : ie.keyPattern with
            | nil => rw [hkp] at h3; exact Option.noConfusion h3
            | cons kc restCols =>
              rw [hkp] at h3
              cases restCols with
              | nil => exact Option.noConfusion h3
              | cons kc2 restCols2 =>
                have h4 : (match completeCols ctx childTag.index pfx unassigned
                    (kc2 :: restCols2) 1 tags with
                  | none => none
                  | some tags1 =>
                    completeAssigned ctx pfx unassigned (i + 1) rest tags1) =
                    some tags' := h3
                clear h3
                cases hcc : completeCols ctx childTag.index pfx unassigned
                    (kc2 :: restCols2) 1 tags with
                | none => rw [hcc] at h4; cases h4
                | some tags1 =>
                  rw [hcc] at h4
                  obtain ⟨k, _, mono1, new1, hpos1⟩ :=
                    completeCols_spec ctx childTag.index pfx unassigned
                      (kc2 :: restCols2) 1 tags tags1 hcc
                  -- the source child q0 carries the pass index at position 0
                  -- in the original state
                  have hq0src : (q0, c0) ∈ srcs := hsub (q0, c0) (by simp)
                  have hq0tag : getTag tags0 q0 = some childTag ∨
                      getTag tags0 q0 = none := by
                    cases hg : getTag tags0 q0 with
                    | none => exact Or.inr rfl
                    | some u =>
                      left
                      rw [hmono q0 u hg] at hct
                      exact hct
                  have hdown1 : DownClosed unassigned srcs tags0 tags1 := by
                    intro x t ht
                    rcases new1 x t ht with h1 | ⟨hn1, hidx1, hge1, hlt1, j1,
                      c1, hu1, _, _⟩
                    · rcases hdown x t h1 with h2 | ⟨ha, hb, hc, hd⟩
                      · exact Or.inl h2
                      · refine Or.inr ⟨ha, hb, hc, ?_⟩
                        intro q hq1 hq2
                        obtain ⟨x', j', c', hu', ht'⟩ := hd q hq1 hq2
                        exact ⟨x', j', c', hu', mono1 x' _ ht'⟩
                    · -- a tag added by this pass
                      refine Or.inr ⟨by omega, ⟨j1, c1, hu1⟩, ?_, ?_⟩
                      · -- the source child is tagged ⟨childTag.index, 0⟩ in tags0
                        rcases hq0tag with hq0 | hq0
                        · have hp0 := h0 q0 childTag hq0
                          refine ⟨q0, c0, hq0src, ?_⟩
                          rw [hidx1]
                          rw [show (⟨childTag.index, 0⟩ : IndexTag) = childTag from ?_]
                          · exact hq0
                          · cases childTag with
                            | mk ci cp =>
                              simp at hp0
                              simp [hp0]
                        · -- impossible: q0 is tagged in tags but was untagged in
                          -- tags0, yet the completer only tags unassigned nodes
                          -- at positions ≥ 1 and q0's tag would then obey
                          -- DownClosed with position ≥ 1; but then its own
                          -- witness chain still provides a position-0 source
                          rcases hdown q0 childTag hct with h2 | ⟨_, _, hc, _⟩
                          · rw [h2] at hq0; cases hq0
                          · obtain ⟨x0, c0', hx0s, hx0t⟩ := hc
                            refine ⟨x0, c0', hx0s, ?_⟩
                            rw [hidx1]
                            exact hx0t
                      · intro q hq1 hq2
                        rcases Nat.lt_or_ge t.pos (1 + k) with _ | hge
                        · obtain ⟨x', j', c', hu', ht'⟩ := hpos1 q (by omega)
                            (by omega)
                          rw [← hidx1] at ht'
                          exact ⟨x', j', c', hu', ht'⟩
                        · omega
                  have hmono1 : ∀ x t, getTag tags0 x = some t →
                      getTag tags1 x = some t := by
                    intro x t ht
                    exact mono1 x t (hmono x t ht)
                  exact ih (i + 1) tags1 tags'
                    (fun qc hqc => hsub qc (by simp [hqc])) hmono1 hdown1 h4



/-- C7: (a) one column scan tags exactly the first candidate (in sibling
order) whose qualified path matches the column, which is still untagged and
whose entry lists the index in `notFirst` — a single tag is installed and
the scan stops; (b) every leaf newly tagged by the completion pass at a
conjunction was untagged before, received a position ≥ 1, is one of the
conjunction's own-field-indexable children, its Predicate entry's
`notFirst` contains the assigned index, and the qualified field path
(prefix + own path) is exactly that column of the index's key pattern. -/
theorem c7_completer_spec :
    (∀ (ctx : CCCtx) (I : Nat) (pfx col : String) (pos : Nat)
       (lst : List (NodePath × MatchExpression)) (tags tags' : Tags),
     findAndAssign ctx I pfx col pos tags lst = some (some tags') →
     ∃ j q c f nf, lst.get? j = some (q, c) ∧
       tags' = setTag tags q ⟨I, pos⟩ ∧
       getTag tags q = none ∧
       pfx ++ c.path = col ∧
       ctx.memo.get? (lookupNodeId ctx.nodeToId q) = some (.pred f nf q) ∧
       I ∈ nf ∧
       (∀ j' < j, ∀ q' c', lst.get? j' = some (q', c') →
         ¬(pfx ++ c'.path = col ∧ getTag tags q' = none ∧
           ∃ f' nf', ctx.memo.get? (lookupNodeId ctx.nodeToId q') =
             some (.pred f' nf' q') ∧ I ∈ nf'))) ∧
    (∀ (ctx : CCCtx) (pfx : String) (p : NodePath) (cs : List MatchExpression)
       (tags tags' : Tags), checkCompoundAnd ctx pfx p cs tags = some tags' →
     ∀ x t, getTag tags' x = some t → getTag tags x = some t ∨
       (getTag tags x = none ∧ 1 ≤ t.pos ∧
        ∃ i c, cs.get? i = some c ∧ x = p ++ [i] ∧
          nodeCanUseIndexOnOwnField c.matchType = true ∧
          (∃ f nf, ctx.memo.get? (lookupNodeId ctx.nodeToId x) =
            some (.pred f nf x) ∧ t.index ∈ nf) ∧
          (∃ ie, ctx.indices.get? t.index = some ie ∧
            ie.keyPattern.get? t.pos = some (pfx ++ c.path)))) := by
  constructor
  · intro ctx I pfx col pos lst tags tags' h
    exact findAndAssign_some ctx I pfx col pos lst tags tags' h
  · intro ctx pfx p cs tags tags' h x t ht
    rw [checkCompoundAnd] at h
    cases hpart : partitionChildren ctx tags p 0 cs with
    | none => rw [hpart] at h; cases h
    | some au =>
      obtain ⟨assigned, unassigned⟩ := au
      rw [hpart] at h
      obtain ⟨hu, _⟩ := partitionChildren_spec ctx tags p cs 0 assigned
        unassigned hpart
      obtain ⟨_, hnew⟩ := completeAssigned_spec ctx pfx unassigned assigned 0
        tags tags' h
      rcases hnew x t ht with h1 | ⟨hn, hpos, j, c, hj, hpred, hie⟩
      · exact Or.inl h1
      · obtain ⟨k, c2, hk, heq, _, hleaf⟩ := hu (x, c) (List.get?_mem hj)
        simp only [Prod.mk.injEq] at heq
        obtain ⟨hx, hc⟩ := heq
        refine Or.inr ⟨hn, hpos, k, c2, hk, by rw [hx]; congr 1; simp, ?_, ?_, ?_⟩
        · exact hleaf
        · exact hpred
        · rw [← hc]; exact hie

/-- Closed-form check of `c7_completer_spec` on `exAndAB` over
`exCatalogBug2` (the completer tags `b` with `{1, 1}`). -/
theorem c7_completer_spec_witness :
    getTag (setTag exTags0 [1] ⟨1, 1⟩) [1] = some ⟨1, 1⟩ ∨
    (getTag exTags0 [1] = none ∧ 1 ≤ (⟨1, 1⟩ : IndexTag).pos ∧
     ∃ i c, exAndAB.children.get? i = some c ∧ ([1] : NodePath) = [] ++ [i] ∧
       nodeCanUseIndexOnOwnField c.matchType = true ∧
       (∃ f nf, exCtxBug2.memo.get? (lookupNodeId exCtxBug2.nodeToId [1]) =
         some (.pred f nf [1]) ∧ (⟨1, 1⟩ : IndexTag).index ∈ nf) ∧
       (∃ ie, exCtxBug2.indices.get? (⟨1, 1⟩ : IndexTag).index = some ie ∧
         ie.keyPattern.get? (⟨1, 1⟩ : IndexTag).pos = some ("" ++ c.path))) := by
  have happ := c7_completer_spec.2 exCtxBug2 "" [] exAndAB.children exTags0
    (setTag exTags0 [1] ⟨1, 1⟩) (by rfl) [1] ⟨1, 1⟩ (by rfl)
  rcases happ with h | h
  · exact Option.noConfusion h
  · exact Or.inr h

/-- C8: completion at a conjunction assigns compound columns contiguously —
assuming every pre-existing tag has position 0 (what the tagger produces),
every position `q` at or below a tagged position of index `I` is itself
tagged with `I` on some node, namely the node itself, a formerly unassigned
child, or the position-0 source child. -/
theorem c8_compound_contiguous (ctx : CCCtx) (pfx : String) (p : NodePath)
    (cs : List MatchExpression) (tags tags' : Tags)
    (h0 : ∀ x t, getTag tags x = some t → t.pos = 0)
    (hcc : checkCompoundAnd ctx pfx p cs tags = some tags') :
    ∀ x t, getTag tags' x = some t → ∀ q, q ≤ t.pos →
      ∃ x', getTag tags' x' = some ⟨t.index, q⟩ ∧
        (x' = x ∨ ∃ i c, cs.get? i = some c ∧ x' = p ++ [i]) := by
  rw [checkCompoundAnd] at hcc
  cases hpart : partitionChildren ctx tags p 0 cs with
  | none => rw [hpart] at hcc; cases hcc
  | some au =>
    obtain ⟨assigned, unassigned⟩ := au
    rw [hpart] at hcc
    obtain ⟨hu, ha⟩ := partitionChildren_spec ctx tags p cs 0 assigned
      unassigned hpart
    obtain ⟨hmono, hdown⟩ := completeAssigned_down ctx pfx unassigned assigned
      tags h0 assigned 0 tags tags' (fun qc hqc => hqc) (fun x t ht => ht)
      (fun x t ht => Or.inl ht) hcc
    intro x t ht q hq
    rcases hdown x t ht with hold | ⟨hpos, _, ⟨x0, c0, hx0s, hx0t⟩, hall⟩
    · have hp0 := h0 x t hold
      have hq0 : q = 0 := by omega
      subst hq0
      refine ⟨x, ?_, Or.inl rfl⟩
      rw [ht]
      congr 1
      cases t with
      | mk ti tp => simp at hp0; simp [hp0]
    · by_cases hq0 : q = 0
      · subst hq0
        refine ⟨x0, hmono x0 _ hx0t, Or.inr ?_⟩
        obtain ⟨k, c2, t2, hk, heq, _, _⟩ := ha (x0, c0) hx0s
        simp only [Prod.mk.injEq] at heq
        exact ⟨k, c2, hk, by rw [heq.1]; congr 1; simp⟩
      · obtain ⟨x', j', c', hu', ht'⟩ := hall q (by omega) hq
        refine ⟨x', ht', Or.inr ?_⟩
        obtain ⟨k, c2, hk, heq, _, _⟩ := hu (x', c') (List.get?_mem hu')
        simp only [Prod.mk.injEq] at heq
        exact ⟨k, c2, hk, by rw [heq.1]; congr 1; simp⟩

/-- Closed-form check of `c8_compound_contiguous` on `exAndAB` over
`exCatalogBug2`. -/
theorem c8_compound_contiguous_witness :
    ∃ x', getTag (setTag exTags0 [1] ⟨1, 1⟩) x' = some ⟨1, 0⟩ ∧
      (x' = [1] ∨ ∃ i c, exAndAB.children.get? i = some c ∧
        x' = ([] : NodePath) ++ [i]) := by
  refine c8_compound_contiguous exCtxBug2 "" [] exAndAB.children exTags0
    (setTag exTags0 [1] ⟨1, 1⟩) ?_ (by rfl) [1] ⟨1, 1⟩ (by rfl) 0 (by decide)
  intro x t h
  by_cases hx : ([0] : NodePath) = x
  · rw [exTags0, getTag] at h
    rw [← hx] at h
    rw [alookup_cons_self] at h
    cases h
    rfl
  · rw [exTags0, getTag, alookup_cons_ne _ _ hx] at h
    cases h


end PlanEnum
